import Mathlib

/-!
Verification of the weight-composition tool `tools/create_multi_input_model.py`.

The tool's `main` loops over the body checkpoints; for each checkpoint at
position `i` it builds `body_state_dict` (the keys starting with the string
`Conv_Body`, with the part after the first `.` as sub-key) and loads it into
`model.Conv_Body.bodies[i]`; when `i == args.head_weights_index` it also
builds `children_state_dicts` (all other keys grouped by the segment before
the first `.`) and loads each group into `model._modules[child]`.  After the
loop, if the body muxer is the concatenate-conv variant, it calls
`init_conv_select_index_(head_weights_index)`; finally it saves
`{'model': model.state_dict()}` to the output path.

We embed checkpoints as insertion-ordered association lists (Python dicts),
keys as character lists, and tensors as values of an abstract type `α`.
Python runtime errors are embedded in `Err`; the spec's error taxonomy maps
to it as: LoadError = `Err.loadError` (torch.load / missing 'model' key),
DuplicateKeyError = `Err.assertionError` (the `assert` at line 74),
UnknownChildError = `Err.keyError` (`model._modules[child]` lookup),
ShapeOrKeyMismatchError = `Err.loadMismatch` (strict `load_state_dict`).
The architecture code (`Generalized_RCNN`, `BodyMuxer`) is not part of the
two source files; the constructed target model is therefore a parameter
`m0 : Model α`, and `init_conv_select_index_` is modelled from the spec.
-/

namespace CreateMultiInputModel

/-- A parameter-path key: the characters of a Python string. -/
abbrev Key := List Char

/-- A state dict: an insertion-ordered mapping from keys to values,
the shallow embedding of a Python dict. -/
abbrev StateDict (α : Type) : Type := List (Key × α)

variable {α : Type} {β : Type}

/-- Python `d[k]` on a dict: the (unique) binding of `k`, here the first. -/
def dlookup (k : Key) : StateDict α → Option α
  | [] => none
  | (k2, v) :: rest => if k = k2 then some v else dlookup k rest

/-- Python `d[k] = v` on a dict: update in place when the key is present,
otherwise append at the end (insertion order). -/
def dinsert (k : Key) (v : α) : StateDict α → StateDict α
  | [] => [(k, v)]
  | (k2, v2) :: rest => if k = k2 then (k2, v) :: rest else (k2, v2) :: dinsert k v rest

/-- The keys of a state dict, in order. -/
def dictKeys (d : StateDict α) : List Key := d.map Prod.fst

/-- A Python dict has pairwise distinct keys. -/
def nodupKeys (d : StateDict α) : Prop := (dictKeys d).Nodup

/-- Python `k.startswith(p)`. -/
def startsWith : Key → Key → Bool
  | _, [] => true
  | [], _ :: _ => false
  | c :: k, p2 :: p => decide (c = p2) && startsWith k p

/-- Python `k.split(sep, 1)` in the case where `sep` occurs in `k`:
the pieces before and after the first occurrence; `none` when absent. -/
def splitFirst (sep : Char) : Key → Option (Key × Key)
  | [] => none
  | c :: rest =>
    if c = sep then some ([], rest)
    else
      match splitFirst sep rest with
      | none => none
      | some (a, b) => some (c :: a, b)

/-- Python `k.split('.', 1)[-1]`: the part after the first dot when there is
one, otherwise the whole key (a one-element split). -/
def splitDropTop (k : Key) : Key :=
  match splitFirst '.' k with
  | none => k
  | some (_, rest) => rest

/-- The backbone module's conventional name, the literal in the source. -/
def convBody : Key := "Conv_Body".data

/-- Left fold of the dict comprehension at lines 62-65 building
`body_state_dict`, with Python dict-assignment semantics. -/
def bodyFrom (acc : StateDict α) : StateDict α → StateDict α
  | [] => acc
  | (k, v) :: rest =>
      bodyFrom (if startsWith k convBody then dinsert (splitDropTop k) v acc else acc) rest

/-- Lines 62-65: `{key.split('.', 1)[-1]: value for key, value in
checkpoint.items() if key.startswith('Conv_Body')}`. -/
def body_state_dict (ckpt : StateDict α) : StateDict α := bodyFrom [] ckpt

/-- The Python runtime errors `main` can raise, see the module docstring
for the correspondence with the spec's error taxonomy. -/
inductive Err where
  | loadError (index : Nat)
  | valueError (key : Key)
  | assertionError (key : Key)
  | keyError (child : Key)
  | indexError (index : Nat)
  | loadMismatch
deriving DecidableEq, Repr

/-- One iteration of the loop at lines 70-75: skip `Conv_Body*` keys, unpack
`child, child_key = key.split('.', 1)` (a `ValueError` when there is no dot),
assert the `(child, child_key)` slot is new, then assign into the
`defaultdict(dict)`. -/
def childrenStep (acc : StateDict (StateDict α)) (k : Key) (v : α) :
    Except Err (StateDict (StateDict α)) :=
  if startsWith k convBody then .ok acc
  else
    match splitFirst '.' k with
    | none => .error (.valueError k)
    | some (child, childKey) =>
      let cur := (dlookup child acc).getD []
      if (dlookup childKey cur).isSome then .error (.assertionError k)
      else .ok (dinsert child (dinsert childKey v cur) acc)

/-- The loop at lines 70-75 over the remaining checkpoint items. -/
def childrenFrom (acc : StateDict (StateDict α)) :
    StateDict α → Except Err (StateDict (StateDict α))
  | [] => .ok acc
  | (k, v) :: rest =>
    match childrenStep acc k v with
    | .error e => .error e
    | .ok acc2 => childrenFrom acc2 rest

/-- Lines 69-75: `children_state_dicts`, the head partition of one
checkpoint grouped by child name. -/
def children_state_dicts (ckpt : StateDict α) : Except Err (StateDict (StateDict α)) :=
  childrenFrom [] ckpt

/-- Whether two state dicts bind exactly the same key set. -/
def sameKeys (m d : StateDict α) : Bool :=
  m.all (fun kv => (dlookup kv.1 d).isSome) && d.all (fun kv => (dlookup kv.1 m).isSome)

/-- PyTorch strict `module.load_state_dict(d)`: fails unless the loaded keys
match the module's parameter names exactly; on success every parameter takes
the loaded value, the module's own key order is kept. -/
def load_state_dict (m d : StateDict α) : Except Err (StateDict α) :=
  if sameKeys m d then .ok (m.map (fun kv => (kv.1, (dlookup kv.1 d).getD kv.2)))
  else .error .loadMismatch

/-- The fusion strategy of the target model's body muxer: either the
`BodyMuxer_ConcatenateConv` variant tested by the `isinstance` at line 80,
or any other conv body / muxer variant. -/
inductive Fusion where
  | concatenateConv
  | plain
deriving DecidableEq, Repr

/-- The constructed target model (`Generalized_RCNN()`), reduced to the parts
`main` touches: the backbone slots `Conv_Body.bodies`, the non-backbone child
submodules reachable through `model._modules`, the muxer variant, and the
muxer's selection weights (`convSelect`, abstracted: see
`init_conv_select_index_`).  Each submodule is represented by its state dict. -/
structure Model (α : Type) where
  bodies : List (StateDict α)
  children : StateDict (StateDict α)
  variant : Fusion
  convSelect : Option Int
deriving DecidableEq, Repr

/-- Python `l[i]` for `i ≥ 0`: `none` embeds the `IndexError`. -/
def nthOpt : List β → Nat → Option β
  | [], _ => none
  | b :: _, 0 => some b
  | _ :: rest, n + 1 => nthOpt rest n

/-- Python `l[i] = b` (only called with `i` in range). -/
def setSlot : List β → Nat → β → List β
  | [], _, _ => []
  | _ :: rest, 0, b => b :: rest
  | x :: rest, n + 1, b => x :: setSlot rest n b

/-- Lines 77-78: `for child, child_state_dict in children_state_dicts.items():
model._modules[child].load_state_dict(child_state_dict)`, acting on the
children mapping. The `_modules` lookup raises `KeyError` for a child the
model never constructed. -/
def loadChildren (children : StateDict (StateDict α)) :
    StateDict (StateDict α) → Except Err (StateDict (StateDict α))
  | [] => .ok children
  | (c, sd) :: rest =>
    match dlookup c children with
    | none => .error (.keyError c)
    | some cur =>
      match load_state_dict cur sd with
      | .error e => .error e
      | .ok r => loadChildren (dinsert c r children) rest

/-- One iteration of the loop at lines 60-78 for the checkpoint at position
`i`: load `body_state_dict` into `Conv_Body.bodies[i]`, and when
`i == head_weights_index` also route the head partition into the child
submodules. -/
def loadCheckpoint (m : Model α) (i : Nat) (headIdx : Int) (ckpt : StateDict α) :
    Except Err (Model α) :=
  match nthOpt m.bodies i with
  | none => .error (.indexError i)
  | some body =>
    match load_state_dict body (body_state_dict ckpt) with
    | .error e => .error e
    | .ok newBody =>
      let m1 : Model α := { m with bodies := setSlot m.bodies i newBody }
      if (i : Int) = headIdx then
        match children_state_dicts ckpt with
        | .error e => .error e
        | .ok cds =>
          match loadChildren m1.children cds with
          | .error e => .error e
          | .ok ch => .ok { m1 with children := ch }
      else .ok m1

/-- Line 61: `torch.load(checkpoint_path)['model']`.  A checkpoint file is
`none` when it is missing, unreadable, or lacks the `'model'` key. -/
def torchLoad (i : Nat) : Option (StateDict α) → Except Err (StateDict α)
  | none => .error (.loadError i)
  | some d => .ok d

/-- The `for i, checkpoint_path in enumerate(args.body_checkpoints)` loop,
started at position `i`. -/
def assembleFrom (m : Model α) (i : Nat) (headIdx : Int) :
    List (Option (StateDict α)) → Except Err (Model α)
  | [] => .ok m
  | f :: rest =>
    match torchLoad i f with
    | .error e => .error e
    | .ok ckpt =>
      match loadCheckpoint m i headIdx ckpt with
      | .error e => .error e
      | .ok m2 => assembleFrom m2 (i + 1) headIdx rest

/-- The whole assembly loop (lines 60-78). -/
def assemble (m : Model α) (headIdx : Int) (files : List (Option (StateDict α))) :
    Except Err (Model α) :=
  assembleFrom m 0 headIdx files

/-- Modelled from the spec: `BodyMuxer_ConcatenateConv.init_conv_select_index_`
(the muxer code is not among the source files).  Per the spec it re-derives
the selection weights so the given backbone index is identity-selected; we
record the selected index as the muxer's selection state. -/
def init_conv_select_index_ (m : Model α) (idx : Int) : Model α :=
  { m with convSelect := some idx }

/-- Lines 80-84: the `isinstance(model.Conv_Body, BodyMuxer_ConcatenateConv)`
dispatch; nothing happens for any other variant. -/
def muxerPostInit (m : Model α) (headIdx : Int) : Model α :=
  match m.variant with
  | .concatenateConv => init_conv_select_index_ m headIdx
  | .plain => m

/-- The flattened keys of `Conv_Body.bodies[i]`: prefixed
`Conv_Body.bodies.<i>.`. -/
def bodySlotKey (i : Nat) (k : Key) : Key :=
  "Conv_Body.bodies.".data ++ Nat.toDigits 10 i ++ '.' :: k

/-- The backbone part of `model.state_dict()`: slot `i` contributes its
entries under `Conv_Body.bodies.<i>.`. -/
def bodiesFlatten (i : Nat) : List (StateDict α) → StateDict α
  | [] => []
  | b :: rest => b.map (fun kv => (bodySlotKey i kv.1, kv.2)) ++ bodiesFlatten (i + 1) rest

/-- The head part of `model.state_dict()`: child `c` contributes its entries
under `c.`. -/
def childrenFlatten : StateDict (StateDict α) → StateDict α
  | [] => []
  | (c, sd) :: rest => sd.map (fun kv => (c ++ '.' :: kv.1, kv.2)) ++ childrenFlatten rest

/-- `model.state_dict()`: the flattened parameter mapping of the model (the
muxer's own selection weights are abstracted into `Model.convSelect` and not
part of this flattening). -/
def state_dict (m : Model α) : StateDict α :=
  bodiesFlatten 0 m.bodies ++ childrenFlatten m.children

/-- Line 88: `{'model': model.state_dict()}`. -/
def output_checkpoint (m : Model α) : StateDict (StateDict α) :=
  [("model".data, state_dict m)]

/-- Lines 60-89 of `main`: assemble, run the muxer post-init hook, then save
the output checkpoint.  The returned pair is the final model together with
the file payload written by `torch.save`; an error means the process dies
before the write. -/
def main (m0 : Model α) (files : List (Option (StateDict α))) (headIdx : Int) :
    Except Err (Model α × StateDict (StateDict α)) :=
  match assemble m0 headIdx files with
  | .error e => .error e
  | .ok m =>
    let m2 := muxerPostInit m headIdx
    .ok (m2, output_checkpoint m2)

/-! ### Dictionary lemmas -/

theorem dictKeys_nil : dictKeys ([] : StateDict α) = [] := rfl

theorem dictKeys_cons (k : Key) (v : α) (d : StateDict α) :
    dictKeys ((k, v) :: d) = k :: dictKeys d := rfl

theorem mem_keys_of_mem (k : Key) (v : α) (d : StateDict α)
    (h : (k, v) ∈ d) : k ∈ dictKeys d :=
  List.mem_map_of_mem Prod.fst h

instance nodupKeysDecidable (d : StateDict α) : Decidable (nodupKeys d) :=
  decidable_of_iff (dictKeys d).Nodup Iff.rfl

theorem nodupKeys_cons (k : Key) (v : α) (rest : StateDict α)
    (h : nodupKeys ((k, v) :: rest)) : k ∉ dictKeys rest ∧ nodupKeys rest := by
  unfold nodupKeys at h ⊢
  rw [dictKeys_cons] at h
  exact List.nodup_cons.mp h

theorem dlookup_dinsert_self (k : Key) (v : α) (d : StateDict α) :
    dlookup k (dinsert k v d) = some v := by
  induction d with
  | nil => simp [dinsert, dlookup]
  | cons kv rest ih =>
    obtain ⟨k2, v2⟩ := kv
    by_cases h : k = k2 <;> simp [dinsert, dlookup, h, ih]

theorem dlookup_dinsert_ne (k k2 : Key) (v : α) (d : StateDict α) (h : k2 ≠ k) :
    dlookup k2 (dinsert k v d) = dlookup k2 d := by
  induction d with
  | nil => simp [dinsert, dlookup, h]
  | cons kv rest ih =>
    obtain ⟨k3, v3⟩ := kv
    by_cases h3 : k = k3
    · subst h3
      simp [dinsert, dlookup, h]
    · by_cases h4 : k2 = k3 <;> simp [dinsert, dlookup, h3, h4, ih]

theorem mem_dinsert (x : Key × α) (k : Key) (v : α) (d : StateDict α)
    (h : x ∈ dinsert k v d) : x = (k, v) ∨ x ∈ d := by
  induction d with
  | nil => simpa [dinsert] using h
  | cons kv rest ih =>
    obtain ⟨k2, v2⟩ := kv
    by_cases h2 : k = k2
    · subst h2
      rcases (by simpa [dinsert] using h : x = (k, v) ∨ x ∈ rest) with h3 | h3
      · exact Or.inl h3
      · exact Or.inr (List.mem_cons_of_mem _ h3)
    · rcases (by simpa [dinsert, h2] using h : x = (k2, v2) ∨ x ∈ dinsert k v rest) with h3 | h3
      · exact Or.inr (by simp [h3])
      · rcases ih h3 with h4 | h4
        · exact Or.inl h4
        · exact Or.inr (List.mem_cons_of_mem _ h4)

theorem dlookup_mem (k : Key) (v : α) (d : StateDict α)
    (h : dlookup k d = some v) : (k, v) ∈ d := by
  induction d with
  | nil => simp [dlookup] at h
  | cons kv rest ih =>
    obtain ⟨k2, v2⟩ := kv
    by_cases h2 : k = k2
    · subst h2
      simp [dlookup] at h
      simp [h]
    · simp [dlookup, h2] at h
      exact List.mem_cons_of_mem _ (ih h)

theorem dlookup_isSome_of_mem_keys (k : Key) (d : StateDict α)
    (h : k ∈ dictKeys d) : (dlookup k d).isSome := by
  induction d with
  | nil => rw [dictKeys_nil] at h
           simp at h
  | cons kv rest ih =>
    obtain ⟨k2, v2⟩ := kv
    rw [dictKeys_cons] at h
    by_cases h2 : k = k2
    · simp [dlookup, h2]
    · rcases List.mem_cons.mp h with h3 | h3
      · exact absurd h3 h2
      · simpa [dlookup, h2] using ih h3

theorem dlookup_isSome_of_mem (k : Key) (v : α) (d : StateDict α)
    (h : (k, v) ∈ d) : (dlookup k d).isSome :=
  dlookup_isSome_of_mem_keys k d (mem_keys_of_mem k v d h)

theorem mem_dlookup (k : Key) (v : α) (d : StateDict α)
    (hN : nodupKeys d) (h : (k, v) ∈ d) : dlookup k d = some v := by
  induction d with
  | nil => simp at h
  | cons kv rest ih =>
    obtain ⟨k2, v2⟩ := kv
    rcases List.mem_cons.mp h with h3 | h3
    · cases h3
      simp [dlookup]
    · by_cases h2 : k = k2
      · subst h2
        exact absurd (mem_keys_of_mem _ _ _ h3) (nodupKeys_cons _ _ _ hN).1
      · simpa [dlookup, h2] using ih (nodupKeys_cons _ _ _ hN).2 h3

theorem dlookup_none_of_not_mem_keys (k : Key) (d : StateDict α)
    (h : k ∉ dictKeys d) : dlookup k d = none := by
  induction d with
  | nil => simp [dlookup]
  | cons kv rest ih =>
    obtain ⟨k2, v2⟩ := kv
    rw [dictKeys_cons] at h
    have h1 : k ≠ k2 := fun he => h (he ▸ List.mem_cons_self k2 (dictKeys rest))
    have h2 : k ∉ dictKeys rest := fun he => h (List.mem_cons_of_mem _ he)
    simp [dlookup, h1, ih h2]

theorem dictKeys_dinsert_of_mem (k : Key) (v : α) (d : StateDict α)
    (h : (dlookup k d).isSome) : dictKeys (dinsert k v d) = dictKeys d := by
  induction d with
  | nil => simp [dlookup] at h
  | cons kv rest ih =>
    obtain ⟨k2, v2⟩ := kv
    by_cases h2 : k = k2
    · simp [dinsert, h2, dictKeys_cons]
    · simp only [dlookup, if_neg h2] at h
      simp only [dinsert, if_neg h2, dictKeys_cons]
      rw [ih h]

theorem dictKeys_dinsert_of_not_mem (k : Key) (v : α) (d : StateDict α)
    (h : dlookup k d = none) : dictKeys (dinsert k v d) = dictKeys d ++ [k] := by
  induction d with
  | nil => simp [dinsert, dictKeys]
  | cons kv rest ih =>
    obtain ⟨k2, v2⟩ := kv
    by_cases h2 : k = k2
    · simp [dlookup, h2] at h
    · simp only [dlookup, if_neg h2] at h
      simp only [dinsert, if_neg h2, dictKeys_cons]
      rw [ih h]
      rfl

theorem nodupKeys_dinsert (k : Key) (v : α) (d : StateDict α)
    (hN : nodupKeys d) : nodupKeys (dinsert k v d) := by
  by_cases h : (dlookup k d).isSome
  · unfold nodupKeys
    rw [dictKeys_dinsert_of_mem k v d h]
    exact hN
  · have h2 : dlookup k d = none := by
      cases h3 : dlookup k d
      · rfl
      · simp [h3] at h
    unfold nodupKeys
    rw [dictKeys_dinsert_of_not_mem k v d h2]
    refine List.Nodup.append hN (List.nodup_singleton k) ?_
    intro a ha hb
    simp at hb
    subst hb
    exact h (dlookup_isSome_of_mem_keys _ _ ha)

/-! ### Key-splitting lemmas -/

theorem splitFirst_eq (sep : Char) (k a b : Key)
    (h : splitFirst sep k = some (a, b)) : k = a ++ sep :: b := by
  induction k generalizing a b with
  | nil => simp [splitFirst] at h
  | cons c rest ih =>
    by_cases h2 : c = sep
    · subst h2
      simp [splitFirst] at h
      simp [h.1, h.2]
    · cases h3 : splitFirst sep rest with
      | none => simp [splitFirst, h2, h3] at h
      | some p =>
        obtain ⟨a2, b2⟩ := p
        simp [splitFirst, h2, h3] at h
        rw [← h.1, ← h.2]
        simpa using ih a2 b2 h3

/-- Two distinct keys never split into the same `(child, sub-key)` pair:
`k.split('.', 1)` with a separator present determines `k`. -/
theorem splitFirst_inj (sep : Char) (k1 k2 a b : Key)
    (h1 : splitFirst sep k1 = some (a, b)) (h2 : splitFirst sep k2 = some (a, b)) :
    k1 = k2 := by
  rw [splitFirst_eq sep k1 a b h1, splitFirst_eq sep k2 a b h2]

/-! ### `load_state_dict` lemmas -/

theorem sameKeys_spec (m d : StateDict α) (h : sameKeys m d = true) :
    (∀ kv ∈ m, (dlookup kv.1 d).isSome) ∧ (∀ kv ∈ d, (dlookup kv.1 m).isSome) := by
  unfold sameKeys at h
  rw [Bool.and_eq_true, List.all_eq_true, List.all_eq_true] at h
  exact h

theorem dlookup_map_loaded_some (m d : StateDict α) (k : Key) (v : α)
    (h : dlookup k m = some v) :
    dlookup k (m.map (fun kv => (kv.1, (dlookup kv.1 d).getD kv.2)))
      = some ((dlookup k d).getD v) := by
  induction m with
  | nil => simp [dlookup] at h
  | cons kv rest ih =>
    obtain ⟨k2, v2⟩ := kv
    by_cases h2 : k = k2
    · subst h2
      simp [dlookup] at h
      subst h
      simp [dlookup]
    · simp [dlookup, h2] at h
      simpa [dlookup, h2] using ih h

theorem dlookup_map_loaded_none (m d : StateDict α) (k : Key)
    (h : dlookup k m = none) :
    dlookup k (m.map (fun kv => (kv.1, (dlookup kv.1 d).getD kv.2))) = none := by
  induction m with
  | nil => simp [dlookup]
  | cons kv rest ih =>
    obtain ⟨k2, v2⟩ := kv
    by_cases h2 : k = k2
    · simp [dlookup, h2] at h
    · simp [dlookup, h2] at h
      simpa [dlookup, h2] using ih h

theorem load_ok_of_sameKeys (m d : StateDict α) (h : sameKeys m d = true) :
    load_state_dict m d = .ok (m.map (fun kv => (kv.1, (dlookup kv.1 d).getD kv.2))) := by
  simp [load_state_dict, h]

theorem load_sameKeys (m d r : StateDict α) (h : load_state_dict m d = .ok r) :
    sameKeys m d = true := by
  unfold load_state_dict at h
  by_cases h2 : sameKeys m d = true
  · exact h2
  · simp [h2] at h

theorem load_result (m d r : StateDict α) (h : load_state_dict m d = .ok r) :
    r = m.map (fun kv => (kv.1, (dlookup kv.1 d).getD kv.2)) := by
  have h2 := load_sameKeys m d r h
  rw [load_ok_of_sameKeys m d h2] at h
  exact (Except.ok.injEq _ _ ▸ h).symm

/-- A successfully loaded module keeps its own parameter names. -/
theorem load_keys (m d r : StateDict α) (h : load_state_dict m d = .ok r) :
    dictKeys r = dictKeys m := by
  rw [load_result m d r h]
  unfold dictKeys
  rw [List.map_map]
  rfl

/-- A successfully loaded module holds exactly the loaded mapping. -/
theorem load_lookup (m d r : StateDict α) (h : load_state_dict m d = .ok r)
    (k : Key) : dlookup k r = dlookup k d := by
  have hs := sameKeys_spec m d (load_sameKeys m d r h)
  rw [load_result m d r h]
  cases h2 : dlookup k m with
  | some v =>
    rw [dlookup_map_loaded_some m d k v h2]
    cases h3 : dlookup k d with
    | some w => simp [h3]
    | none =>
      have h4 := hs.1 (k, v) (dlookup_mem k v m h2)
      simp [h3] at h4
  | none =>
    rw [dlookup_map_loaded_none m d k h2]
    cases h3 : dlookup k d with
    | some w =>
      have h4 := hs.2 (k, w) (dlookup_mem k w d h3)
      simp [h2] at h4
    | none => rfl

/-- Every entry of a successfully loaded module carries a value of the
loaded mapping at the same key. -/
theorem load_mem (m d r : StateDict α) (h : load_state_dict m d = .ok r)
    (k : Key) (v : α) (hm : (k, v) ∈ r) : dlookup k d = some v := by
  have hs := sameKeys_spec m d (load_sameKeys m d r h)
  rw [load_result m d r h] at hm
  rcases List.mem_map.mp hm with ⟨⟨k2, v2⟩, h2, h3⟩
  have hk : k2 = k := congrArg Prod.fst h3
  subst hk
  have h4 := hs.1 (k2, v2) h2
  cases h5 : dlookup k2 d with
  | some w =>
    have hv : v = w := by
      have := congrArg Prod.snd h3
      simpa [h5] using this.symm
    rw [hv]
  | none => simp [h5] at h4

/-! ### `body_state_dict` lemmas -/

theorem bodyFrom_mem (ckpt : StateDict α) : ∀ (acc : StateDict α) (x : Key × α),
    x ∈ bodyFrom acc ckpt →
    x ∈ acc ∨ ∃ k, (k, x.2) ∈ ckpt ∧ startsWith k convBody = true ∧ splitDropTop k = x.1 := by
  induction ckpt with
  | nil =>
    intro acc x h
    exact Or.inl h
  | cons kv rest ih =>
    obtain ⟨k, v⟩ := kv
    intro acc x h
    by_cases hs : startsWith k convBody = true
    · rcases ih (dinsert (splitDropTop k) v acc) x (by simpa [bodyFrom, hs] using h) with h2 | h2
      · rcases mem_dinsert x (splitDropTop k) v acc h2 with h3 | h3
        · subst h3
          exact Or.inr ⟨k, List.mem_cons_self _ _, hs, rfl⟩
        · exact Or.inl h3
      · obtain ⟨k2, hk2, hs2, hd2⟩ := h2
        exact Or.inr ⟨k2, List.mem_cons_of_mem _ hk2, hs2, hd2⟩
    · rcases ih acc x (by simpa [bodyFrom, hs] using h) with h2 | h2
      · exact Or.inl h2
      · obtain ⟨k2, hk2, hs2, hd2⟩ := h2
        exact Or.inr ⟨k2, List.mem_cons_of_mem _ hk2, hs2, hd2⟩

/-- Backward direction of the body partition: every entry of
`body_state_dict` originates in a checkpoint key passing the
`startswith('Conv_Body')` test. -/
theorem body_state_dict_mem (ckpt : StateDict α) (x : Key × α)
    (h : x ∈ body_state_dict ckpt) :
    ∃ k, (k, x.2) ∈ ckpt ∧ startsWith k convBody = true ∧ splitDropTop k = x.1 := by
  rcases bodyFrom_mem ckpt [] x h with h2 | h2
  · simp at h2
  · exact h2

theorem bodyFrom_frozen (rest : StateDict α) (sk : Key)
    (h : ∀ k2 v2, (k2, v2) ∈ rest → startsWith k2 convBody = true → splitDropTop k2 ≠ sk) :
    ∀ acc : StateDict α, dlookup sk (bodyFrom acc rest) = dlookup sk acc := by
  induction rest with
  | nil =>
    intro acc
    rfl
  | cons kv rest2 ih =>
    obtain ⟨k2, v2⟩ := kv
    intro acc
    by_cases hs : startsWith k2 convBody = true
    · have hne : sk ≠ splitDropTop k2 :=
        fun he => h k2 v2 (List.mem_cons_self _ _) hs he.symm
      have ih2 := ih (fun k3 v3 hm hs3 => h k3 v3 (List.mem_cons_of_mem _ hm) hs3)
        (dinsert (splitDropTop k2) v2 acc)
      simpa [bodyFrom, hs, dlookup_dinsert_ne _ _ _ _ hne] using ih2
    · have ih2 := ih (fun k3 v3 hm hs3 => h k3 v3 (List.mem_cons_of_mem _ hm) hs3) acc
      simpa [bodyFrom, hs] using ih2

/-- Forward direction of the body partition: under unique checkpoint keys
and no sub-key collision among `Conv_Body*` keys, every entry passing the
test lands in `body_state_dict` under its stripped sub-key. -/
theorem body_state_dict_lookup (ckpt : StateDict α)
    (hN : nodupKeys ckpt)
    (hInj : ∀ k1 v1 k2 v2, (k1, v1) ∈ ckpt → (k2, v2) ∈ ckpt →
      startsWith k1 convBody = true → startsWith k2 convBody = true →
      splitDropTop k1 = splitDropTop k2 → k1 = k2)
    (k : Key) (v : α) (hmem : (k, v) ∈ ckpt) (hs : startsWith k convBody = true) :
    dlookup (splitDropTop k) (body_state_dict ckpt) = some v := by
  suffices hgen : ∀ acc : StateDict α, dlookup (splitDropTop k) (bodyFrom acc ckpt) = some v by
    exact hgen []
  induction ckpt with
  | nil => simp at hmem
  | cons kv rest ih =>
    obtain ⟨k1, v1⟩ := kv
    intro acc
    rcases List.mem_cons.mp hmem with h3 | h3
    · cases h3
      have hfr : ∀ k2 v2, (k2, v2) ∈ rest → startsWith k2 convBody = true →
          splitDropTop k2 ≠ splitDropTop k := by
        intro k2 v2 hm hs2 he
        have hk : k2 = k := hInj k2 v2 k v (List.mem_cons_of_mem _ hm)
          (List.mem_cons_self _ _) hs2 hs he
        subst hk
        exact (nodupKeys_cons _ _ _ hN).1 (mem_keys_of_mem _ _ _ hm)
      rw [show bodyFrom acc ((k, v) :: rest) = bodyFrom (dinsert (splitDropTop k) v acc) rest
          by simp [bodyFrom, hs]]
      rw [bodyFrom_frozen rest (splitDropTop k) hfr]
      exact dlookup_dinsert_self _ _ _
    · have hN2 := (nodupKeys_cons _ _ _ hN).2
      have hInj2 : ∀ k2 v2 k3 v3, (k2, v2) ∈ rest → (k3, v3) ∈ rest →
          startsWith k2 convBody = true → startsWith k3 convBody = true →
          splitDropTop k2 = splitDropTop k3 → k2 = k3 := by
        intro k2 v2 k3 v3 hm2 hm3 hs2 hs3 he
        exact hInj k2 v2 k3 v3 (List.mem_cons_of_mem _ hm2) (List.mem_cons_of_mem _ hm3)
          hs2 hs3 he
      have ih2 := ih hN2 hInj2 h3
      by_cases hs1 : startsWith k1 convBody = true
      · simpa [bodyFrom, hs1] using ih2 (dinsert (splitDropTop k1) v1 acc)
      · simpa [bodyFrom, hs1] using ih2 acc

/-! ### `children_state_dicts` lemmas -/

/-- Lookup of a `(child, sub-key)` slot in the grouped head partition. -/
def cdsLookup (c s : Key) (cds : StateDict (StateDict α)) : Option α :=
  (dlookup c cds).bind (dlookup s)

theorem cdsLookup_none_empty (c s : Key) :
    cdsLookup c s ([] : StateDict (StateDict α)) = none := rfl

theorem childrenStep_ok (acc acc2 : StateDict (StateDict α)) (k : Key) (v : α)
    (h : childrenStep acc k v = .ok acc2) :
    (startsWith k convBody = true ∧ acc2 = acc) ∨
    (startsWith k convBody = false ∧ ∃ c s, splitFirst '.' k = some (c, s) ∧
      cdsLookup c s acc = none ∧
      acc2 = dinsert c (dinsert s v ((dlookup c acc).getD [])) acc) := by
  by_cases hs : startsWith k convBody = true
  · left
    refine ⟨hs, ?_⟩
    simp only [childrenStep, hs, if_true] at h
    exact ((Except.ok.injEq _ _).mp h).symm
  · right
    refine ⟨by simpa using hs, ?_⟩
    cases h2 : splitFirst '.' k with
    | none => simp [childrenStep, hs, h2] at h
    | some p =>
      obtain ⟨c, s⟩ := p
      refine ⟨c, s, rfl, ?_, ?_⟩
      · simp only [childrenStep, hs, if_false, Bool.false_eq_true, h2] at h
        by_cases h3 : (dlookup s ((dlookup c acc).getD [])).isSome
        · simp [h3] at h
        · unfold cdsLookup
          cases h4 : dlookup c acc with
          | none => rfl
          | some sd =>
            rw [h4] at h3
            rw [Option.some_bind]
            simpa using h3
      · simp only [childrenStep, hs, if_false, Bool.false_eq_true, h2] at h
        by_cases h3 : (dlookup s ((dlookup c acc).getD [])).isSome
        · simp [h3] at h
        · simp only [h3, if_false, Bool.false_eq_true] at h
          exact ((Except.ok.injEq _ _).mp h).symm

theorem childrenStep_error (acc : StateDict (StateDict α)) (k : Key) (v : α) (e : Err)
    (h : childrenStep acc k v = .error e) :
    (∃ k2, e = .valueError k2) ∨
    (e = .assertionError k ∧ ∃ c s, splitFirst '.' k = some (c, s) ∧
      (cdsLookup c s acc).isSome) := by
  by_cases hs : startsWith k convBody = true
  · simp [childrenStep, hs] at h
  · cases h2 : splitFirst '.' k with
    | none =>
      simp only [childrenStep, hs, if_false, Bool.false_eq_true, h2] at h
      exact Or.inl ⟨k, ((Except.error.injEq _ _).mp h).symm⟩
    | some p =>
      obtain ⟨c, s⟩ := p
      simp only [childrenStep, hs, if_false, Bool.false_eq_true, h2] at h
      by_cases h3 : (dlookup s ((dlookup c acc).getD [])).isSome
      · simp only [h3, if_true] at h
        refine Or.inr ⟨((Except.error.injEq _ _).mp h).symm, c, s, rfl, ?_⟩
        unfold cdsLookup
        cases h4 : dlookup c acc with
        | none =>
          rw [h4] at h3
          simp [dlookup] at h3
        | some sd =>
          rw [h4] at h3
          rw [Option.some_bind]
          simpa using h3
      · simp [h3] at h

theorem cdsLookup_insert (acc : StateDict (StateDict α)) (c s c2 s2 : Key) (v : α) :
    cdsLookup c2 s2 (dinsert c (dinsert s v ((dlookup c acc).getD [])) acc) =
      if c2 = c ∧ s2 = s then some v else cdsLookup c2 s2 acc := by
  by_cases hc : c2 = c
  · subst hc
    unfold cdsLookup
    rw [dlookup_dinsert_self, Option.some_bind]
    by_cases hsx : s2 = s
    · subst hsx
      simp [dlookup_dinsert_self]
    · rw [dlookup_dinsert_ne _ _ _ _ hsx]
      simp only [hsx, and_false, if_false]
      cases h4 : dlookup c2 acc with
      | none => simp [dlookup]
      | some sd => simp
  · unfold cdsLookup
    rw [dlookup_dinsert_ne _ _ _ _ hc]
    simp [hc]

theorem childrenFrom_nil (acc : StateDict (StateDict α)) :
    childrenFrom acc [] = .ok acc := rfl

theorem childrenFrom_cons (acc : StateDict (StateDict α)) (k : Key) (v : α)
    (rest : StateDict α) :
    childrenFrom acc ((k, v) :: rest) =
      match childrenStep acc k v with
      | .error e => .error e
      | .ok acc2 => childrenFrom acc2 rest := rfl

theorem childrenFrom_persist (l : StateDict α) : ∀ (acc cds : StateDict (StateDict α))
    (c s : Key) (v : α), cdsLookup c s acc = some v → childrenFrom acc l = .ok cds →
    cdsLookup c s cds = some v := by
  induction l with
  | nil =>
    intro acc cds c s v hl h
    rw [childrenFrom_nil] at h
    rw [← (Except.ok.injEq _ _).mp h]
    exact hl
  | cons kv rest ih =>
    obtain ⟨k, v1⟩ := kv
    intro acc cds c s v hl h
    rw [childrenFrom_cons] at h
    cases h2 : childrenStep acc k v1 with
    | error e => rw [h2] at h; exact absurd h (by simp)
    | ok acc2 =>
      rw [h2] at h
      rcases childrenStep_ok acc acc2 k v1 h2 with ⟨_, he⟩ | ⟨_, c1, s1, _, hnone, he⟩
      · rw [he] at h
        exact ih acc cds c s v hl h
      · subst he
        refine ih _ cds c s v ?_ h
        rw [cdsLookup_insert]
        by_cases hcs : c = c1 ∧ s = s1
        · rw [hcs.1, hcs.2] at hl
          rw [hl] at hnone
          cases hnone
        · rw [if_neg hcs]
          exact hl

/-- Forward direction of the head partition: every non-body key `c.s` of the
checkpoint ends up, with its value, in child `c` at sub-key `s` whenever the
grouping succeeds. -/
theorem childrenFrom_forward (l : StateDict α) : ∀ (acc cds : StateDict (StateDict α))
    (k : Key) (v : α) (c s : Key), (k, v) ∈ l → startsWith k convBody = false →
    splitFirst '.' k = some (c, s) → childrenFrom acc l = .ok cds →
    cdsLookup c s cds = some v := by
  induction l with
  | nil =>
    intro acc cds k v c s hm
    simp at hm
  | cons kv rest ih =>
    obtain ⟨k1, v1⟩ := kv
    intro acc cds k v c s hm hs hsp h
    rw [childrenFrom_cons] at h
    cases h2 : childrenStep acc k1 v1 with
    | error e => rw [h2] at h; exact absurd h (by simp)
    | ok acc2 =>
      rw [h2] at h
      rcases List.mem_cons.mp hm with h3 | h3
      · have hk : k = k1 := congrArg Prod.fst h3
        have hv : v = v1 := congrArg Prod.snd h3
        subst hk
        subst hv
        rcases childrenStep_ok acc acc2 k v h2 with ⟨hs2, _⟩ | ⟨_, c1, s1, hsp2, _, he⟩
        · simp [hs] at hs2
        · rw [hsp] at hsp2
          have hpair : (c, s) = (c1, s1) := (Option.some.injEq _ _).mp hsp2
          have hc : c = c1 := congrArg Prod.fst hpair
          have hsx : s = s1 := congrArg Prod.snd hpair
          rw [← hc, ← hsx] at he
          subst he
          refine childrenFrom_persist rest _ cds c s v ?_ h
          rw [cdsLookup_insert]
          simp
      · exact ih acc2 cds k v c s h3 hs hsp h

/-- Backward direction of the head partition: every populated
`(child, sub-key)` slot of the grouping originates from the accumulator or
from the matching non-body checkpoint key. -/
theorem childrenFrom_backward (l : StateDict α) : ∀ (acc cds : StateDict (StateDict α))
    (c s : Key) (v : α), childrenFrom acc l = .ok cds → cdsLookup c s cds = some v →
    cdsLookup c s acc = some v ∨
      ((c ++ '.' :: s, v) ∈ l ∧ startsWith (c ++ '.' :: s) convBody = false) := by
  induction l with
  | nil =>
    intro acc cds c s v h hl
    rw [childrenFrom_nil] at h
    rw [(Except.ok.injEq _ _).mp h]
    exact Or.inl hl
  | cons kv rest ih =>
    obtain ⟨k1, v1⟩ := kv
    intro acc cds c s v h hl
    rw [childrenFrom_cons] at h
    cases h2 : childrenStep acc k1 v1 with
    | error e => rw [h2] at h; exact absurd h (by simp)
    | ok acc2 =>
      rw [h2] at h
      rcases ih acc2 cds c s v h hl with h3 | h3
      · rcases childrenStep_ok acc acc2 k1 v1 h2 with ⟨_, he⟩ | ⟨hs1, c1, s1, hsp1, _, he⟩
        · subst he
          exact Or.inl h3
        · subst he
          rw [cdsLookup_insert] at h3
          by_cases hcs : c = c1 ∧ s = s1
          · rw [if_pos hcs] at h3
            obtain ⟨hc, hsx⟩ := hcs
            subst hc
            subst hsx
            have hv : v1 = v := (Option.some.injEq _ _).mp h3
            subst hv
            have hk : k1 = c ++ '.' :: s := splitFirst_eq '.' k1 c s hsp1
            subst hk
            exact Or.inr ⟨List.mem_cons_self _ _, hs1⟩
          · rw [if_neg hcs] at h3
            exact Or.inl h3
      · exact Or.inr ⟨List.mem_cons_of_mem _ h3.1, h3.2⟩

/-- With unique checkpoint keys the `assert` at line 74 can never fire:
a populated `(child, sub-key)` slot would force an earlier occurrence of
the same full key. -/
theorem childrenFrom_no_assert (l : StateDict α) : ∀ (acc : StateDict (StateDict α))
    (done : List Key),
    (∀ c s v, cdsLookup c s acc = some v → (c ++ '.' :: s) ∈ done) →
    (done ++ dictKeys l).Nodup →
    ∀ k, childrenFrom acc l ≠ .error (.assertionError k) := by
  induction l with
  | nil =>
    intro acc done hInv hN k h
    rw [childrenFrom_nil] at h
    cases h
  | cons kv rest ih =>
    obtain ⟨k1, v1⟩ := kv
    intro acc done hInv hN k h
    rw [childrenFrom_cons] at h
    cases h2 : childrenStep acc k1 v1 with
    | error e =>
      rw [h2] at h
      have he : e = .assertionError k := by
        cases h
        rfl
      subst he
      rcases childrenStep_error acc k1 v1 _ h2 with ⟨k2, hk2⟩ | ⟨_, c, s, hsp, hsome⟩
      · cases hk2
      · cases h3 : cdsLookup c s acc with
        | none =>
          rw [h3] at hsome
          cases hsome
        | some w =>
          have hmem := hInv c s w h3
          have hk1 : k1 = c ++ '.' :: s := splitFirst_eq '.' k1 c s hsp
          rw [dictKeys_cons] at hN
          have hdisj := List.disjoint_of_nodup_append hN
          exact hdisj hmem (by rw [← hk1]; exact List.mem_cons_self _ _)
    | ok acc2 =>
      rw [h2] at h
      rcases childrenStep_ok acc acc2 k1 v1 h2 with ⟨_, he⟩ | ⟨_, c, s, hsp, _, he⟩
      · rw [he] at h
        refine ih acc done hInv ?_ k h
        rw [dictKeys_cons] at hN
        exact List.Nodup.sublist
          (List.Sublist.append (List.Sublist.refl _) (List.sublist_cons_self _ _)) hN
      · subst he
        refine ih _ (done ++ [k1]) ?_ ?_ k h
        · intro c2 s2 v2 hl
          rw [cdsLookup_insert] at hl
          by_cases hcs : c2 = c ∧ s2 = s
          · rw [hcs.1, hcs.2]
            have hk1 : k1 = c ++ '.' :: s := splitFirst_eq '.' k1 c s hsp
            exact List.mem_append_right _ (by simp [← hk1])
          · rw [if_neg hcs] at hl
            exact List.mem_append_left _ (hInv c2 s2 v2 hl)
        · rw [dictKeys_cons] at hN
          simpa [List.append_assoc] using hN

/-- Line 74's assert cannot fire when the checkpoint is a Python dict
(unique keys): the grouping never raises the duplicate-key assertion. -/
theorem children_state_dicts_no_assert (ckpt : StateDict α) (hN : nodupKeys ckpt) :
    ∀ k, children_state_dicts ckpt ≠ .error (.assertionError k) := by
  intro k
  refine childrenFrom_no_assert ckpt [] [] ?_ ?_ k
  · intro c s v hl
    rw [cdsLookup_none_empty] at hl
    cases hl
  · simpa using hN

/-- The grouped head partition is itself a dict of dicts: child names are
unique and each child's sub-keys are unique. -/
theorem childrenFrom_nodup (l : StateDict α) : ∀ (acc cds : StateDict (StateDict α)),
    childrenFrom acc l = .ok cds → nodupKeys acc → (∀ x ∈ acc, nodupKeys x.2) →
    nodupKeys cds ∧ ∀ x ∈ cds, nodupKeys x.2 := by
  induction l with
  | nil =>
    intro acc cds h hN hI
    rw [childrenFrom_nil] at h
    rw [← (Except.ok.injEq _ _).mp h]
    exact ⟨hN, hI⟩
  | cons kv rest ih =>
    obtain ⟨k1, v1⟩ := kv
    intro acc cds h hN hI
    rw [childrenFrom_cons] at h
    cases h2 : childrenStep acc k1 v1 with
    | error e => rw [h2] at h; exact absurd h (by simp)
    | ok acc2 =>
      rw [h2] at h
      rcases childrenStep_ok acc acc2 k1 v1 h2 with ⟨_, he⟩ | ⟨_, c, s, _, _, he⟩
      · rw [he] at h
        exact ih acc cds h hN hI
      · subst he
        refine ih _ cds h (nodupKeys_dinsert _ _ _ hN) ?_
        intro x hx
        rcases mem_dinsert x _ _ _ hx with h3 | h3
        · subst h3
          refine nodupKeys_dinsert _ _ _ ?_
          cases h4 : dlookup c acc with
          | none => simp [nodupKeys, dictKeys]
          | some sd =>
            have := hI (c, sd) (dlookup_mem c sd acc h4)
            simpa [h4] using this
        · exact hI x h3

theorem children_state_dicts_nodup (ckpt : StateDict α)
    (cds : StateDict (StateDict α)) (h : children_state_dicts ckpt = .ok cds) :
    nodupKeys cds ∧ ∀ x ∈ cds, nodupKeys x.2 := by
  refine childrenFrom_nodup ckpt [] cds h ?_ ?_
  · simp [nodupKeys, dictKeys]
  · intro x hx
    simp at hx

/-! ### `loadChildren` lemmas -/

theorem loadChildren_nil (ch : StateDict (StateDict α)) :
    loadChildren ch [] = .ok ch := rfl

theorem loadChildren_cons (ch : StateDict (StateDict α)) (c : Key) (sd : StateDict α)
    (rest : StateDict (StateDict α)) :
    loadChildren ch ((c, sd) :: rest) =
      match dlookup c ch with
      | none => .error (.keyError c)
      | some cur =>
        match load_state_dict cur sd with
        | .error e => .error e
        | .ok r => loadChildren (dinsert c r ch) rest := rfl

/-- Loading the head partition never renames or adds child submodules. -/
theorem loadChildren_keys (cds : StateDict (StateDict α)) :
    ∀ ch ch2, loadChildren ch cds = .ok ch2 → dictKeys ch2 = dictKeys ch := by
  induction cds with
  | nil =>
    intro ch ch2 h
    rw [loadChildren_nil] at h
    rw [← (Except.ok.injEq _ _).mp h]
  | cons cs rest ih =>
    obtain ⟨c, sd⟩ := cs
    intro ch ch2 h
    rw [loadChildren_cons] at h
    cases h2 : dlookup c ch with
    | none => rw [h2] at h; exact absurd h (by simp)
    | some cur =>
      simp only [h2] at h
      cases h3 : load_state_dict cur sd with
      | error e => rw [h3] at h; exact absurd h (by simp)
      | ok r =>
        rw [h3] at h
        rw [ih _ _ h]
        exact dictKeys_dinsert_of_mem c r ch (by rw [h2]; rfl)

/-- Every child named in the head partition must already exist in the
model's children: the `_modules[child]` lookup is checked before any load. -/
theorem loadChildren_known (cds : StateDict (StateDict α)) :
    ∀ ch ch2, loadChildren ch cds = .ok ch2 → ∀ x ∈ cds, (dlookup x.1 ch).isSome := by
  induction cds with
  | nil =>
    intro ch ch2 h x hx
    simp at hx
  | cons cs rest ih =>
    obtain ⟨c, sd⟩ := cs
    intro ch ch2 h x hx
    rw [loadChildren_cons] at h
    cases h2 : dlookup c ch with
    | none => rw [h2] at h; exact absurd h (by simp)
    | some cur =>
      simp only [h2] at h
      cases h3 : load_state_dict cur sd with
      | error e => rw [h3] at h; exact absurd h (by simp)
      | ok r =>
        rw [h3] at h
        rcases List.mem_cons.mp hx with h4 | h4
        · rw [congrArg Prod.fst h4, h2]
          rfl
        · have h5 := ih _ _ h x h4
          by_cases h6 : x.1 = c
          · rw [h6, h2]
            rfl
          · rwa [dlookup_dinsert_ne _ _ _ _ h6] at h5

/-- Per-child effect of loading the head partition: a child absent from the
partition is untouched; a child present is loaded from exactly its group. -/
theorem loadChildren_spec (cds : StateDict (StateDict α)) :
    ∀ ch ch2, loadChildren ch cds = .ok ch2 → nodupKeys cds →
    (∀ c, dlookup c cds = none → dlookup c ch2 = dlookup c ch) ∧
    (∀ c sd, dlookup c cds = some sd → ∃ cur r, dlookup c ch = some cur ∧
      load_state_dict cur sd = .ok r ∧ dlookup c ch2 = some r) := by
  induction cds with
  | nil =>
    intro ch ch2 h hN
    rw [loadChildren_nil] at h
    rw [← (Except.ok.injEq _ _).mp h]
    constructor
    · intro c _
      rfl
    · intro c sd h2
      cases h2
  | cons cs rest ih =>
    obtain ⟨c1, sd1⟩ := cs
    intro ch ch2 h hN
    rw [loadChildren_cons] at h
    cases h2 : dlookup c1 ch with
    | none => rw [h2] at h; exact absurd h (by simp)
    | some cur =>
      simp only [h2] at h
      cases h3 : load_state_dict cur sd1 with
      | error e => rw [h3] at h; exact absurd h (by simp)
      | ok r =>
        rw [h3] at h
        have ihs := ih _ _ h (nodupKeys_cons _ _ _ hN).2
        constructor
        · intro c h4
          have hne : c ≠ c1 := by
            intro he
            rw [he] at h4
            simp [dlookup] at h4
          have h5 : dlookup c rest = none := by
            simpa [dlookup, hne] using h4
          rw [ihs.1 c h5, dlookup_dinsert_ne _ _ _ _ hne]
        · intro c sd h4
          by_cases hne : c = c1
          · subst hne
            have hsd : sd1 = sd := by
              simpa [dlookup] using h4
            subst hsd
            have h5 : dlookup c rest = none :=
              dlookup_none_of_not_mem_keys c rest (nodupKeys_cons _ _ _ hN).1
            refine ⟨cur, r, h2, h3, ?_⟩
            rw [ihs.1 c h5, dlookup_dinsert_self]
          · have h5 : dlookup c rest = some sd := by
              simpa [dlookup, hne] using h4
            obtain ⟨cur2, r2, h6, h7, h8⟩ := ihs.2 c sd h5
            rw [dlookup_dinsert_ne _ _ _ _ hne] at h6
            exact ⟨cur2, r2, h6, h7, h8⟩

/-- Provenance of the loaded children: every child of the result is either
an untouched original child or the result of loading one head group. -/
theorem loadChildren_mem (cds : StateDict (StateDict α)) :
    ∀ ch ch2, loadChildren ch cds = .ok ch2 → ∀ x, x ∈ ch2 →
    x ∈ ch ∨ ∃ cur sd, (x.1, sd) ∈ cds ∧ load_state_dict cur sd = .ok x.2 := by
  induction cds with
  | nil =>
    intro ch ch2 h x hx
    rw [loadChildren_nil] at h
    rw [(Except.ok.injEq _ _).mp h]
    exact Or.inl hx
  | cons cs rest ih =>
    obtain ⟨c1, sd1⟩ := cs
    intro ch ch2 h x hx
    rw [loadChildren_cons] at h
    cases h2 : dlookup c1 ch with
    | none => rw [h2] at h; exact absurd h (by simp)
    | some cur =>
      simp only [h2] at h
      cases h3 : load_state_dict cur sd1 with
      | error e => rw [h3] at h; exact absurd h (by simp)
      | ok r =>
        rw [h3] at h
        rcases ih _ _ h x hx with h4 | h4
        · rcases mem_dinsert x _ _ _ h4 with h5 | h5
          · subst h5
            exact Or.inr ⟨cur, sd1, List.mem_cons_self _ _, h3⟩
          · exact Or.inl h5
        · obtain ⟨cur2, sd2, h5, h6⟩ := h4
          exact Or.inr ⟨cur2, sd2, List.mem_cons_of_mem _ h5, h6⟩

/-! ### Slot-list lemmas -/

theorem nthOpt_lt_length (l : List β) :
    ∀ (i : Nat) (b : β), nthOpt l i = some b → i < l.length := by
  induction l with
  | nil =>
    intro i b h
    cases h
  | cons x rest ih =>
    intro i b h
    cases i with
    | zero => simp
    | succ n =>
      have := ih n b h
      simpa [Nat.succ_lt_succ_iff] using this

theorem nthOpt_of_lt (l : List β) :
    ∀ i, i < l.length → ∃ b, nthOpt l i = some b := by
  induction l with
  | nil =>
    intro i h
    simp at h
  | cons x rest ih =>
    intro i h
    cases i with
    | zero => exact ⟨x, rfl⟩
    | succ n => exact ih n (by simpa [Nat.succ_lt_succ_iff] using h)

theorem length_setSlot (l : List β) :
    ∀ (i : Nat) (b : β), (setSlot l i b).length = l.length := by
  induction l with
  | nil =>
    intro i b
    rfl
  | cons x rest ih =>
    intro i b
    cases i with
    | zero => rfl
    | succ n => simpa [setSlot] using ih n b

theorem nthOpt_setSlot_self (l : List β) :
    ∀ (i : Nat) (b : β), i < l.length → nthOpt (setSlot l i b) i = some b := by
  induction l with
  | nil =>
    intro i b h
    simp at h
  | cons x rest ih =>
    intro i b h
    cases i with
    | zero => rfl
    | succ n => exact ih n b (by simpa [Nat.succ_lt_succ_iff] using h)

theorem nthOpt_setSlot_ne (l : List β) :
    ∀ (i j : Nat) (b : β), j ≠ i → nthOpt (setSlot l i b) j = nthOpt l j := by
  induction l with
  | nil =>
    intro i j b _
    cases j <;> rfl
  | cons x rest ih =>
    intro i j b hne
    cases i with
    | zero =>
      cases j with
      | zero => exact absurd rfl hne
      | succ m => rfl
    | succ n =>
      cases j with
      | zero => rfl
      | succ m => exact ih n m b (fun he => hne (by rw [he]))

/-! ### Assembly-loop lemmas -/

/-- Characterization of one successful loop iteration. -/
theorem loadCheckpoint_ok (m : Model α) (i : Nat) (hd : Int) (ckpt : StateDict α)
    (m1 : Model α) (h : loadCheckpoint m i hd ckpt = .ok m1) :
    ∃ b r, nthOpt m.bodies i = some b ∧
      load_state_dict b (body_state_dict ckpt) = .ok r ∧
      m1.bodies = setSlot m.bodies i r ∧
      m1.variant = m.variant ∧ m1.convSelect = m.convSelect ∧
      ((((i : Int) = hd → False) ∧ m1.children = m.children) ∨
        ((i : Int) = hd ∧ ∃ cds ch, children_state_dicts ckpt = .ok cds ∧
          loadChildren m.children cds = .ok ch ∧ m1.children = ch)) := by
  unfold loadCheckpoint at h
  cases h2 : nthOpt m.bodies i with
  | none => simp [h2] at h
  | some b =>
    simp only [h2] at h
    cases h3 : load_state_dict b (body_state_dict ckpt) with
    | error e => simp [h3] at h
    | ok r =>
      simp only [h3] at h
      refine ⟨b, r, rfl, h3, ?_⟩
      by_cases h4 : (i : Int) = hd
      · rw [if_pos h4] at h
        cases h5 : children_state_dicts ckpt with
        | error e => simp [h5] at h
        | ok cds =>
          simp only [h5] at h
          cases h6 : loadChildren ({ m with bodies := setSlot m.bodies i r } : Model α).children cds with
          | error e => simp [h6] at h
          | ok ch =>
            simp only [h6] at h
            have he : ({ m with bodies := setSlot m.bodies i r, children := ch } : Model α) = m1 :=
              (Except.ok.injEq _ _).mp h
            rw [← he]
            exact ⟨rfl, rfl, rfl, Or.inr ⟨h4, cds, ch, rfl, h6, rfl⟩⟩
      · rw [if_neg h4] at h
        have he : ({ m with bodies := setSlot m.bodies i r } : Model α) = m1 :=
          (Except.ok.injEq _ _).mp h
        rw [← he]
        exact ⟨rfl, rfl, rfl, Or.inl ⟨h4, rfl⟩⟩

theorem assembleFrom_nil (m : Model α) (i : Nat) (hd : Int) :
    assembleFrom m i hd [] = .ok m := rfl

theorem assembleFrom_cons (m : Model α) (i : Nat) (hd : Int)
    (f : Option (StateDict α)) (rest : List (Option (StateDict α))) :
    assembleFrom m i hd (f :: rest) =
      match torchLoad i f with
      | .error e => .error e
      | .ok ckpt =>
        match loadCheckpoint m i hd ckpt with
        | .error e => .error e
        | .ok m2 => assembleFrom m2 (i + 1) hd rest := rfl

/-- Master characterization of a successful assembly loop started at
position `i`: every slot receives exactly the body partition of its own
checkpoint, slots outside the range are untouched, and the children are
loaded exactly when some position hits the head-weights index. -/
theorem assembleFrom_ok (files : List (Option (StateDict α))) :
    ∀ (m m2 : Model α) (i : Nat) (hd : Int),
    assembleFrom m i hd files = .ok m2 →
    m2.bodies.length = m.bodies.length ∧
    m2.variant = m.variant ∧
    m2.convSelect = m.convSelect ∧
    (∀ j, (j < i ∨ i + files.length ≤ j) → nthOpt m2.bodies j = nthOpt m.bodies j) ∧
    (∀ t f, nthOpt files t = some f → ∃ ckpt b r, f = some ckpt ∧
      nthOpt m.bodies (i + t) = some b ∧
      load_state_dict b (body_state_dict ckpt) = .ok r ∧
      nthOpt m2.bodies (i + t) = some r) ∧
    ((∀ t f, nthOpt files t = some f → (((i + t : Nat) : Int) = hd → False)) →
      m2.children = m.children) ∧
    (∀ t f, nthOpt files t = some f → ((i + t : Nat) : Int) = hd →
      ∃ ckpt cds ch, f = some ckpt ∧ children_state_dicts ckpt = .ok cds ∧
        loadChildren m.children cds = .ok ch ∧ m2.children = ch) := by
  induction files with
  | nil =>
    intro m m2 i hd h
    rw [assembleFrom_nil] at h
    have he : m = m2 := (Except.ok.injEq _ _).mp h
    subst he
    refine ⟨rfl, rfl, rfl, fun j _ => rfl, ?_, fun _ => rfl, ?_⟩
    · intro t f hf
      cases hf
    · intro t f hf
      cases hf
  | cons f0 rest ih =>
    intro m m2 i hd h
    rw [assembleFrom_cons] at h
    cases f0 with
    | none => simp [torchLoad] at h
    | some ckpt0 =>
      simp only [torchLoad] at h
      cases h2 : loadCheckpoint m i hd ckpt0 with
      | error e => simp [h2] at h
      | ok mm =>
        simp only [h2] at h
        obtain ⟨b, r, hb, hload, hbodies, hvar, hsel, hhead⟩ :=
          loadCheckpoint_ok m i hd ckpt0 mm h2
        obtain ⟨ihlen, ihvar, ihsel, ihfrozen, ihslot, ihnochild, ihchild⟩ :=
          ih mm m2 (i + 1) hd h
        have hib : i < m.bodies.length := nthOpt_lt_length m.bodies i b hb
        have hmmlen : mm.bodies.length = m.bodies.length := by
          rw [hbodies]
          exact length_setSlot m.bodies i r
        have hmmget_ne : ∀ j, j ≠ i → nthOpt mm.bodies j = nthOpt m.bodies j := by
          intro j hj
          rw [hbodies]
          exact nthOpt_setSlot_ne m.bodies i j r hj
        have hmmget_i : nthOpt mm.bodies i = some r := by
          rw [hbodies]
          exact nthOpt_setSlot_self m.bodies i r hib
        refine ⟨?_, ?_, ?_, ?_, ?_, ?_, ?_⟩
        · rw [ihlen, hmmlen]
        · rw [ihvar, hvar]
        · rw [ihsel, hsel]
        · intro j hj
          have hj3 : j < i ∨ i + (rest.length + 1) ≤ j := by
            simpa using hj
          have hj2 : j < i + 1 ∨ (i + 1) + rest.length ≤ j := by omega
          rw [ihfrozen j hj2]
          exact hmmget_ne j (by omega)
        · intro t f hf
          cases t with
          | zero =>
            have hfc : f = some ckpt0 := by
              have h9 : some ckpt0 = f := by simpa [nthOpt] using hf
              exact h9.symm
            refine ⟨ckpt0, b, r, hfc, hb, hload, ?_⟩
            have hfr : nthOpt m2.bodies (i + 0) = nthOpt mm.bodies (i + 0) :=
              ihfrozen (i + 0) (Or.inl (by omega))
            rw [hfr]
            exact hmmget_i
          | succ t2 =>
            have hf2 : nthOpt rest t2 = some f := hf
            obtain ⟨ckpt, b2, r2, hfc, hb2, hl2, hr2⟩ := ihslot t2 f hf2
            refine ⟨ckpt, b2, r2, hfc, ?_, hl2, ?_⟩
            · rw [show i + (t2 + 1) = (i + 1) + t2 from by omega]
              rw [← hmmget_ne ((i + 1) + t2) (by omega)]
              exact hb2
            · rw [show i + (t2 + 1) = (i + 1) + t2 from by omega]
              exact hr2
        · intro hmiss
          have h0 : (((i : Nat)) : Int) = hd → False := by
            intro habs
            exact hmiss 0 (some ckpt0) rfl habs
          rcases hhead with ⟨_, hch⟩ | ⟨hhit, _⟩
          · have hrest : ∀ t f, nthOpt rest t = some f →
                ((((i + 1) + t : Nat)) : Int) = hd → False := by
              intro t f hf habs
              refine hmiss (t + 1) f hf ?_
              rw [show i + (t + 1) = (i + 1) + t from by omega]
              exact habs
            rw [ihnochild hrest, hch]
          · exact absurd hhit h0
        · intro t f hf hhit
          cases t with
          | zero =>
            have hfc : f = some ckpt0 := by
              have h9 : some ckpt0 = f := by simpa [nthOpt] using hf
              exact h9.symm
            have h0 : (((i : Nat)) : Int) = hd := hhit
            rcases hhead with ⟨hne, _⟩ | ⟨_, cds, ch, hcds, hlc, hch⟩
            · exact absurd h0 hne
            · refine ⟨ckpt0, cds, ch, hfc, hcds, hlc, ?_⟩
              have hrest : ∀ t2 f2, nthOpt rest t2 = some f2 →
                  ((((i + 1) + t2 : Nat)) : Int) = hd → False := by
                intro t2 f2 hf2 habs
                rw [← h0] at habs
                have harith : (i + 1) + t2 = i := by exact_mod_cast habs
                omega
              rw [ihnochild hrest, hch]
          | succ t2 =>
            have hhit2 : ((((i + 1) + t2 : Nat)) : Int) = hd := by
              rw [show (i + 1) + t2 = i + (t2 + 1) from by omega]
              exact hhit
            obtain ⟨ckpt, cds, ch, hfc, hcds, hlc, hch⟩ := ihchild t2 f hf hhit2
            have hne0 : (((i : Nat)) : Int) = hd → False := by
              intro habs
              rw [← hhit2] at habs
              have harith : i = (i + 1) + t2 := by exact_mod_cast habs
              omega
            rcases hhead with ⟨_, hchm⟩ | ⟨hhit0, _⟩
            · rw [hchm] at hlc
              exact ⟨ckpt, cds, ch, hfc, hcds, hlc, hch⟩
            · exact absurd hhit0 hne0

/-! ### `main` and post-init lemmas -/

/-- An assembly error aborts `main` before the write: the error propagates
and no output pair is produced. -/
theorem main_of_assemble_error (m0 : Model α) (files : List (Option (StateDict α)))
    (hd : Int) (e : Err) (h : assemble m0 hd files = .error e) :
    main m0 files hd = .error e := by
  unfold main
  rw [h]

/-- A successful `main` run decomposes as: full assembly, then the muxer
post-init hook, then the write of exactly the hooked model's state dict. -/
theorem main_ok_elim (m0 : Model α) (files : List (Option (StateDict α))) (hd : Int)
    (m : Model α) (out : StateDict (StateDict α)) (h : main m0 files hd = .ok (m, out)) :
    ∃ ma, assemble m0 hd files = .ok ma ∧ m = muxerPostInit ma hd ∧
      out = output_checkpoint m := by
  unfold main at h
  cases h2 : assemble m0 hd files with
  | error e =>
    rw [h2] at h
    cases h
  | ok ma =>
    rw [h2] at h
    have hp : (muxerPostInit ma hd, output_checkpoint (muxerPostInit ma hd))
        = (m, out) := (Except.ok.injEq _ _).mp h
    have hm : muxerPostInit ma hd = m := congrArg Prod.fst hp
    have ho : output_checkpoint (muxerPostInit ma hd) = out := congrArg Prod.snd hp
    refine ⟨ma, rfl, hm.symm, ?_⟩
    rw [← ho, hm]

theorem muxerPostInit_concat (m : Model α) (hd : Int)
    (h : m.variant = .concatenateConv) :
    muxerPostInit m hd = init_conv_select_index_ m hd := by
  unfold muxerPostInit
  rw [h]

theorem muxerPostInit_plain (m : Model α) (hd : Int) (h : m.variant = .plain) :
    muxerPostInit m hd = m := by
  unfold muxerPostInit
  rw [h]

theorem fusion_ne_concat (v : Fusion) (h : v ≠ .concatenateConv) : v = .plain := by
  cases v
  · exact absurd rfl h
  · rfl

theorem muxerPostInit_children (m : Model α) (hd : Int) :
    (muxerPostInit m hd).children = m.children := by
  unfold muxerPostInit
  cases h : m.variant
  · rfl
  · rfl

theorem muxerPostInit_bodies (m : Model α) (hd : Int) :
    (muxerPostInit m hd).bodies = m.bodies := by
  unfold muxerPostInit
  cases h : m.variant
  · rfl
  · rfl

theorem muxerPostInit_variant (m : Model α) (hd : Int) :
    (muxerPostInit m hd).variant = m.variant := by
  unfold muxerPostInit
  cases h : m.variant
  · exact h
  · exact h

/-! ### State-dict flattening lemmas -/

theorem nthOpt_none_of_ge (l : List β) :
    ∀ i, l.length ≤ i → nthOpt l i = none := by
  induction l with
  | nil =>
    intro i _
    cases i <;> rfl
  | cons x rest ih =>
    intro i h
    cases i with
    | zero => simp at h
    | succ n => exact ih n (by simpa [Nat.succ_le_succ_iff] using h)

/-- The key layout of the backbone slots. -/
def bodiesShape (bs : List (StateDict α)) : List (List Key) := bs.map dictKeys

/-- The key layout of the child submodules. -/
def childrenShape (ch : StateDict (StateDict α)) : List (Key × List Key) :=
  ch.map (fun x => (x.1, dictKeys x.2))

theorem dictKeys_prefixedBody (b : StateDict α) (i : Nat) :
    dictKeys (b.map (fun kv => (bodySlotKey i kv.1, kv.2))) =
      (dictKeys b).map (bodySlotKey i) := by
  unfold dictKeys
  rw [List.map_map, List.map_map]
  rfl

theorem dictKeys_prefixedChild (sd : StateDict α) (c : Key) :
    dictKeys (sd.map (fun kv => (c ++ '.' :: kv.1, kv.2))) =
      (dictKeys sd).map (fun s => c ++ '.' :: s) := by
  unfold dictKeys
  rw [List.map_map, List.map_map]
  rfl

theorem dictKeys_bodiesFlatten (bs1 : List (StateDict α)) :
    ∀ (bs2 : List (StateDict α)) (i : Nat), bodiesShape bs1 = bodiesShape bs2 →
    dictKeys (bodiesFlatten i bs1) = dictKeys (bodiesFlatten i bs2) := by
  induction bs1 with
  | nil =>
    intro bs2 i h
    cases bs2 with
    | nil => rfl
    | cons b2 rest2 => simp [bodiesShape] at h
  | cons b rest ih =>
    intro bs2 i h
    cases bs2 with
    | nil => simp [bodiesShape] at h
    | cons b2 rest2 =>
      simp only [bodiesShape, List.map_cons, List.cons.injEq] at h
      unfold bodiesFlatten
      unfold dictKeys
      rw [List.map_append, List.map_append]
      have h1 : dictKeys (b.map (fun kv => (bodySlotKey i kv.1, kv.2))) =
          dictKeys (b2.map (fun kv => (bodySlotKey i kv.1, kv.2))) := by
        rw [dictKeys_prefixedBody, dictKeys_prefixedBody, h.1]
      have h2 := ih rest2 (i + 1) h.2
      unfold dictKeys at h1 h2
      rw [h1, h2]

theorem dictKeys_childrenFlatten (ch1 : StateDict (StateDict α)) :
    ∀ (ch2 : StateDict (StateDict α)), childrenShape ch1 = childrenShape ch2 →
    dictKeys (childrenFlatten ch1) = dictKeys (childrenFlatten ch2) := by
  induction ch1 with
  | nil =>
    intro ch2 h
    cases ch2 with
    | nil => rfl
    | cons x rest2 => simp [childrenShape] at h
  | cons x rest ih =>
    obtain ⟨c, sd⟩ := x
    intro ch2 h
    cases ch2 with
    | nil => simp [childrenShape] at h
    | cons y rest2 =>
      obtain ⟨c2, sd2⟩ := y
      simp only [childrenShape, List.map_cons, List.cons.injEq, Prod.mk.injEq] at h
      unfold childrenFlatten
      unfold dictKeys
      rw [List.map_append, List.map_append]
      have h1 : dictKeys (sd.map (fun kv => (c ++ '.' :: kv.1, kv.2))) =
          dictKeys (sd2.map (fun kv => (c2 ++ '.' :: kv.1, kv.2))) := by
        rw [dictKeys_prefixedChild, dictKeys_prefixedChild, h.1.1, h.1.2]
      have h2 := ih rest2 h.2
      unfold dictKeys at h1 h2
      rw [h1, h2]

/-- Models with the same key layout write state dicts with the same keys. -/
theorem state_dict_keys_eq (m1 m2 : Model α)
    (hb : bodiesShape m1.bodies = bodiesShape m2.bodies)
    (hc : childrenShape m1.children = childrenShape m2.children) :
    dictKeys (state_dict m1) = dictKeys (state_dict m2) := by
  unfold state_dict
  unfold dictKeys
  rw [List.map_append, List.map_append]
  have h1 := dictKeys_bodiesFlatten m1.bodies m2.bodies 0 hb
  have h2 := dictKeys_childrenFlatten m1.children m2.children hc
  unfold dictKeys at h1 h2
  rw [h1, h2]

theorem bodiesShape_ext (bs2 : List (StateDict α)) :
    ∀ bs : List (StateDict α),
    (∀ j, (nthOpt bs2 j).map dictKeys = (nthOpt bs j).map dictKeys) →
    bodiesShape bs2 = bodiesShape bs := by
  induction bs2 with
  | nil =>
    intro bs h
    cases bs with
    | nil => rfl
    | cons b rest =>
      have := h 0
      simp [nthOpt] at this
  | cons b2 rest2 ih =>
    intro bs h
    cases bs with
    | nil =>
      have := h 0
      simp [nthOpt] at this
    | cons b rest =>
      have h0 := h 0
      simp only [nthOpt, Option.map_some] at h0
      have hrest := ih rest (fun j => h (j + 1))
      simp only [bodiesShape, List.map_cons, List.cons.injEq]
      exact ⟨(Option.some.injEq _ _).mp h0, hrest⟩

theorem childrenShape_dinsert (ch : StateDict (StateDict α)) :
    ∀ (c : Key) (cur r : StateDict α), dlookup c ch = some cur →
    dictKeys r = dictKeys cur →
    childrenShape (dinsert c r ch) = childrenShape ch := by
  induction ch with
  | nil =>
    intro c cur r h _
    cases h
  | cons x rest ih =>
    obtain ⟨c2, sd2⟩ := x
    intro c cur r h hk
    by_cases hc : c = c2
    · subst hc
      have hcur : sd2 = cur := by
        simpa [dlookup] using h
      subst hcur
      simp [dinsert, childrenShape, hk]
    · have h2 : dlookup c rest = some cur := by
        simpa [dlookup, hc] using h
      simp only [dinsert, if_neg (by exact fun he => hc he : ¬c = c2), childrenShape,
        List.map_cons, List.cons.injEq]
      constructor
      · trivial
      · exact ih c cur r h2 hk

/-- Loading the head partition never changes the children's key layout. -/
theorem loadChildren_shape (cds : StateDict (StateDict α)) :
    ∀ ch ch2, loadChildren ch cds = .ok ch2 → childrenShape ch2 = childrenShape ch := by
  induction cds with
  | nil =>
    intro ch ch2 h
    rw [loadChildren_nil] at h
    rw [← (Except.ok.injEq _ _).mp h]
  | cons cs rest ih =>
    obtain ⟨c, sd⟩ := cs
    intro ch ch2 h
    rw [loadChildren_cons] at h
    cases h2 : dlookup c ch with
    | none => simp [h2] at h
    | some cur =>
      simp only [h2] at h
      cases h3 : load_state_dict cur sd with
      | error e => simp [h3] at h
      | ok r =>
        simp only [h3] at h
        rw [ih _ _ h]
        exact childrenShape_dinsert ch c cur r h2 (load_keys cur sd r h3)

theorem mem_bodiesFlatten (bs : List (StateDict α)) :
    ∀ (i : Nat) (x : Key × α), x ∈ bodiesFlatten i bs →
    ∃ t b kv, nthOpt bs t = some b ∧ kv ∈ b ∧ x = (bodySlotKey (i + t) kv.1, kv.2) := by
  induction bs with
  | nil =>
    intro i x h
    simp [bodiesFlatten] at h
  | cons b rest ih =>
    intro i x h
    rcases List.mem_append.mp h with h2 | h2
    · rcases List.mem_map.mp h2 with ⟨kv, hkv, he⟩
      exact ⟨0, b, kv, rfl, hkv, he.symm⟩
    · obtain ⟨t, b2, kv, hn, hkv, he⟩ := ih (i + 1) x h2
      refine ⟨t + 1, b2, kv, hn, hkv, ?_⟩
      rw [he, show (i + 1) + t = i + (t + 1) from by omega]

theorem bodiesFlatten_mem (bs : List (StateDict α)) :
    ∀ (i t : Nat) (b : StateDict α) (kv : Key × α), nthOpt bs t = some b → kv ∈ b →
    (bodySlotKey (i + t) kv.1, kv.2) ∈ bodiesFlatten i bs := by
  induction bs with
  | nil =>
    intro i t b kv h _
    cases h
  | cons b0 rest ih =>
    intro i t b kv h hkv
    cases t with
    | zero =>
      have hb : b0 = b := (Option.some.injEq _ _).mp h
      subst hb
      exact List.mem_append_left _ (List.mem_map_of_mem _ hkv)
    | succ t2 =>
      have h2 := ih (i + 1) t2 b kv h hkv
      rw [show i + (t2 + 1) = (i + 1) + t2 from by omega]
      exact List.mem_append_right _ h2

theorem mem_childrenFlatten (ch : StateDict (StateDict α)) :
    ∀ x : Key × α, x ∈ childrenFlatten ch →
    ∃ c sd kv, (c, sd) ∈ ch ∧ kv ∈ sd ∧ x = (c ++ '.' :: kv.1, kv.2) := by
  induction ch with
  | nil =>
    intro x h
    simp [childrenFlatten] at h
  | cons y rest ih =>
    obtain ⟨c, sd⟩ := y
    intro x h
    rcases List.mem_append.mp h with h2 | h2
    · rcases List.mem_map.mp h2 with ⟨kv, hkv, he⟩
      exact ⟨c, sd, kv, List.mem_cons_self _ _, hkv, he.symm⟩
    · obtain ⟨c2, sd2, kv, hm, hkv, he⟩ := ih x h2
      exact ⟨c2, sd2, kv, List.mem_cons_of_mem _ hm, hkv, he⟩

theorem childrenFlatten_mem (ch : StateDict (StateDict α)) :
    ∀ (c : Key) (sd : StateDict α) (kv : Key × α), (c, sd) ∈ ch → kv ∈ sd →
    (c ++ '.' :: kv.1, kv.2) ∈ childrenFlatten ch := by
  induction ch with
  | nil =>
    intro c sd kv h _
    simp at h
  | cons y rest ih =>
    obtain ⟨c0, sd0⟩ := y
    intro c sd kv h hkv
    rcases List.mem_cons.mp h with h2 | h2
    · have hc : c0 = c := (congrArg Prod.fst h2).symm
      have hsd : sd0 = sd := (congrArg Prod.snd h2).symm
      subst hc
      subst hsd
      exact List.mem_append_left _ (List.mem_map_of_mem _ hkv)
    · exact List.mem_append_right _ (ih c sd kv h2 hkv)

instance {ε σ : Type} [DecidableEq ε] [DecidableEq σ] : DecidableEq (Except ε σ) :=
  fun a b =>
    match a, b with
    | .error e1, .error e2 => decidable_of_iff (e1 = e2)
        ⟨fun h => by rw [h], fun h => (Except.error.injEq _ _).mp h⟩
    | .error _, .ok _ => isFalse (fun h => Except.noConfusion h)
    | .ok _, .error _ => isFalse (fun h => Except.noConfusion h)
    | .ok v1, .ok v2 => decidable_of_iff (v1 = v2)
        ⟨fun h => by rw [h], fun h => (Except.ok.injEq _ _).mp h⟩

theorem nthOpt_mem (l : List β) : ∀ (t : Nat) (f : β), nthOpt l t = some f → f ∈ l := by
  induction l with
  | nil =>
    intro t f h
    cases h
  | cons x rest ih =>
    intro t f h
    cases t with
    | zero =>
      have : x = f := (Option.some.injEq _ _).mp h
      rw [← this]
      exact List.mem_cons_self _ _
    | succ t2 => exact List.mem_cons_of_mem _ (ih t2 f h)

theorem nthOpt_map {γ : Type} (g : β → γ) (l : List β) :
    ∀ t : Nat, nthOpt (l.map g) t = (nthOpt l t).map g := by
  induction l with
  | nil =>
    intro t
    cases t <;> rfl
  | cons x rest ih =>
    intro t
    cases t with
    | zero => rfl
    | succ t2 => exact ih t2

/-! ### Claim theorems -/

/-- C5: if any step of the composition (checkpoint load, partitioning,
installing a sub-key mapping, or an install of the head partition) raises
an error, the error propagates and no output pair is produced; conversely a
successful run's output is written only after the entire assembly succeeded
for all checkpoints, followed by the post-init hook. -/
theorem c5_no_partial_write (m0 : Model α) (files : List (Option (StateDict α)))
    (hd : Int) :
    (∀ e, assemble m0 hd files = .error e → main m0 files hd = .error e) ∧
    (∀ m out, main m0 files hd = .ok (m, out) →
      ∃ ma, assemble m0 hd files = .ok ma ∧ m = muxerPostInit ma hd ∧
        out = output_checkpoint m) :=
  ⟨fun e h => main_of_assemble_error m0 files hd e h,
   fun m out h => main_ok_elim m0 files hd m out h⟩

def c5m0 : Model Nat := ⟨[[("a".data, 0)]], [], .plain, none⟩

/-- Witness for C5: an unreadable first checkpoint file aborts the run with
the load error and `main` produces no output. -/
theorem c5_no_partial_write_witness :
    assemble c5m0 0 [none] = .error (.loadError 0) ∧
    main c5m0 [none] 0 = .error (.loadError 0) :=
  ⟨rfl, (c5_no_partial_write c5m0 [none] 0).1 (.loadError 0) rfl⟩

/-- C6: within one checkpoint with unique keys, two distinct keys can never
map to the same `(child, sub-key)` pair — `split('.', 1)` with a dot present
determines the key — and consequently the duplicate-key assertion at
line 74 can never fire: the head-partition build never fails with the
duplicate-key error for a dict-backed checkpoint. -/
theorem c6_no_duplicate_key (ckpt : StateDict α) (hN : nodupKeys ckpt) :
    (∀ k1 k2 c s : Key, k1 ≠ k2 → splitFirst '.' k1 = some (c, s) →
      splitFirst '.' k2 = some (c, s) → False) ∧
    (∀ k, children_state_dicts ckpt ≠ .error (.assertionError k)) :=
  ⟨fun k1 k2 c s hne h1 h2 => hne (splitFirst_inj '.' k1 k2 c s h1 h2),
   children_state_dicts_no_assert ckpt hN⟩

def c6ckpt : StateDict Nat :=
  [("RPN.conv.w".data, 1), ("RPN.conv.b".data, 2), ("Box_Outs.fc.w".data, 3)]

/-- Witness for C6 on a concrete three-key head checkpoint. -/
theorem c6_no_duplicate_key_witness :
    children_state_dicts c6ckpt ≠ .error (.assertionError "RPN.conv.w".data) :=
  (c6_no_duplicate_key c6ckpt (by decide)).2 "RPN.conv.w".data

/-- C8: on a successful run the post-assembly step is exactly the
`isinstance` dispatch of lines 80-84: for the concatenate-conv muxer the
model is re-initialized by `init_conv_select_index_` with the head-weights
index, and for every other fusion variant the post-assembly step changes
nothing (the assembled model passes through unchanged). -/
theorem c8_postinit_dispatch (m0 : Model α) (files : List (Option (StateDict α)))
    (hd : Int) (m : Model α) (out : StateDict (StateDict α))
    (hrun : main m0 files hd = .ok (m, out)) :
    ∃ ma, assemble m0 hd files = .ok ma ∧ ma.variant = m0.variant ∧
      m = muxerPostInit ma hd ∧
      (m0.variant = .concatenateConv →
        m = init_conv_select_index_ ma hd ∧ m.convSelect = some hd) ∧
      (m0.variant ≠ .concatenateConv → m = ma ∧ m.convSelect = m0.convSelect) := by
  obtain ⟨ma, hassem, hm, _⟩ := main_ok_elim m0 files hd m out hrun
  obtain ⟨_, hvar, hsel, _, _, _, _⟩ := assembleFrom_ok files m0 ma 0 hd hassem
  refine ⟨ma, hassem, hvar, hm, ?_, ?_⟩
  · intro hconc
    have hv : ma.variant = .concatenateConv := by
      rw [hvar, hconc]
    constructor
    · rw [hm, muxerPostInit_concat ma hd hv]
    · rw [hm, muxerPostInit_concat ma hd hv]
      rfl
  · intro hconc
    have hv : ma.variant = .plain := fusion_ne_concat ma.variant (by
      rw [hvar]
      exact hconc)
    have hp := muxerPostInit_plain ma hd hv
    refine ⟨by rw [hm, hp], ?_⟩
    rw [hm, hp, hsel]

def c8m0 : Model Nat := ⟨[[("a".data, 0)]], [], .concatenateConv, none⟩

def c8files : List (Option (StateDict Nat)) := [some [("Conv_Body.a".data, 4)]]

def c8m : Model Nat := ⟨[[("a".data, 4)]], [], .concatenateConv, some 0⟩

def c8out : StateDict (StateDict Nat) :=
  [("model".data, [("Conv_Body.bodies.0.a".data, 4)])]

/-- Witness for C8 on a concrete concatenate-conv run with head index 0. -/
theorem c8_postinit_dispatch_witness :
    ∃ ma, assemble c8m0 0 c8files = .ok ma ∧ ma.variant = c8m0.variant ∧
      c8m = muxerPostInit ma 0 ∧
      (c8m0.variant = .concatenateConv →
        c8m = init_conv_select_index_ ma 0 ∧ c8m.convSelect = some 0) ∧
      (c8m0.variant ≠ .concatenateConv → c8m = ma ∧ c8m.convSelect = c8m0.convSelect) :=
  c8_postinit_dispatch c8m0 c8files 0 c8m c8out (by decide)

/-- C9: the composition is deterministic.  The embedded routing is a pure
function of the constructed model, the checkpoint files and the head-weights
index, so two runs on the same inputs produce the same final model and a
byte-identical output payload. -/
theorem c9_deterministic (m0 : Model α) (files : List (Option (StateDict α)))
    (hd : Int) (r1 r2 : Except Err (Model α × StateDict (StateDict α)))
    (h1 : main m0 files hd = r1) (h2 : main m0 files hd = r2) : r1 = r2 := by
  rw [← h1, ← h2]

def c9m0 : Model Nat := ⟨[[("a".data, 0)]], [], .plain, none⟩

def c9files : List (Option (StateDict Nat)) := [some [("Conv_Body.a".data, 5)]]

/-- Witness for C9: two identical concrete runs agree. -/
theorem c9_deterministic_witness :
    main c9m0 c9files 0 = main c9m0 c9files 0 :=
  c9_deterministic c9m0 c9files 0 (main c9m0 c9files 0) (main c9m0 c9files 0) rfl rfl

/-- The body-classification rule as the spec words it: the key's top-level
dot-delimited path segment (the whole key when it has no dot), to be
compared with the code's prefix test. -/
def topSegment (k : Key) : Key :=
  match splitFirst '.' k with
  | none => k
  | some (c, _) => c

/-- C2 counterexample: the key `Conv_Bodyy.x` has top-level segment
`Conv_Bodyy`, which is not the backbone name `Conv_Body`, yet the code
routes it to the body partition under sub-key `x` and not to the head
partition — line 64 tests `key.startswith('Conv_Body')`, a string-prefix
test, not top-level-segment equality. -/
theorem c2_counterexample :
    startsWith "Conv_Bodyy.x".data convBody = true ∧
    topSegment "Conv_Bodyy.x".data ≠ convBody ∧
    dlookup "x".data (body_state_dict [("Conv_Bodyy.x".data, (7 : Nat))]) = some 7 ∧
    children_state_dicts [("Conv_Bodyy.x".data, (7 : Nat))] = .ok [] :=
  ⟨by decide, by decide, by decide, by decide⟩

/-- C2 (amended): a key is routed to the body partition iff it starts with
the literal prefix `Conv_Body` (not: iff its top-level segment equals
`Conv_Body`); its body sub-key is the part after the first dot (the whole
key when it has none); every other key goes to the head partition under its
own first segment with the remainder as sub-key.  Stated for a unique-key
checkpoint whose body sub-keys do not collide. -/
theorem c2_partitioner (ckpt : StateDict α) (hN : nodupKeys ckpt)
    (hInj : ∀ k1 v1 k2 v2, (k1, v1) ∈ ckpt → (k2, v2) ∈ ckpt →
      startsWith k1 convBody = true → startsWith k2 convBody = true →
      splitDropTop k1 = splitDropTop k2 → k1 = k2) :
    (∀ k v, (k, v) ∈ ckpt → startsWith k convBody = true →
      dlookup (splitDropTop k) (body_state_dict ckpt) = some v) ∧
    (∀ x, x ∈ body_state_dict ckpt →
      ∃ k, (k, x.2) ∈ ckpt ∧ startsWith k convBody = true ∧ splitDropTop k = x.1) ∧
    (∀ cds, children_state_dicts ckpt = .ok cds →
      (∀ k v c s, (k, v) ∈ ckpt → startsWith k convBody = false →
        splitFirst '.' k = some (c, s) → cdsLookup c s cds = some v) ∧
      (∀ c s v, cdsLookup c s cds = some v →
        (c ++ '.' :: s, v) ∈ ckpt ∧ startsWith (c ++ '.' :: s) convBody = false)) := by
  refine ⟨?_, ?_, ?_⟩
  · intro k v hm hs
    exact body_state_dict_lookup ckpt hN hInj k v hm hs
  · intro x hx
    exact body_state_dict_mem ckpt x hx
  · intro cds hcds
    constructor
    · intro k v c s hm hs hsp
      exact childrenFrom_forward ckpt [] cds k v c s hm hs hsp hcds
    · intro c s v hv
      rcases childrenFrom_backward ckpt [] cds c s v hcds hv with h | h
      · rw [cdsLookup_none_empty] at h
        cases h
      · exact h

def c2ckpt : StateDict Nat := [("Conv_Body.a".data, 1), ("RPN.w".data, 2)]

/-- Witness for C2 (amended) on a concrete two-key checkpoint. -/
theorem c2_partitioner_witness :
    dlookup (splitDropTop "Conv_Body.a".data) (body_state_dict c2ckpt) = some 1 :=
  (c2_partitioner c2ckpt (by decide) (by
    intro k1 v1 k2 v2 h1 h2 hs1 hs2 _
    simp only [c2ckpt, List.mem_cons, List.not_mem_nil, or_false,
      Prod.mk.injEq] at h1 h2
    rcases h1 with ⟨rfl, rfl⟩ | ⟨rfl, rfl⟩ <;> rcases h2 with ⟨rfl, rfl⟩ | ⟨rfl, rfl⟩
    · rfl
    · exact absurd hs2 (by decide)
    · exact absurd hs1 (by decide)
    · rfl)).1 "Conv_Body.a".data 1 (by decide) (by decide)

def c3m0 : Model Nat :=
  ⟨[[("a".data, 0)], [("a".data, 7)]], [], .plain, none⟩

def c3files : List (Option (StateDict Nat)) := [some [("Conv_Body.a".data, 1)]]

def c3m : Model Nat :=
  ⟨[[("a".data, 1)], [("a".data, 7)]], [], .plain, none⟩

def c3out : StateDict (StateDict Nat) :=
  [("model".data,
    [("Conv_Body.bodies.0.a".data, 1), ("Conv_Body.bodies.1.a".data, 7)])]

/-- C3 counterexample: one checkpoint against two configured backbone
slots — a count mismatch — yet the composition raises no error of any kind
and writes an output file in which slot 1 keeps its construction-time
value.  The tool performs no checkpoint-count validation. -/
theorem c3_counterexample :
    c3m0.bodies.length = 2 ∧ c3files.length = 1 ∧
    main c3m0 c3files 0 = .ok (c3m, c3out) :=
  ⟨rfl, rfl, by decide⟩

/-- C3 (amended): the only count constraint the code enforces is implicit:
a successful run requires at most as many checkpoints as backbone slots
(one more checkpoint would hit the `bodies[i]` index error before the
write); with fewer checkpoints than slots the run succeeds and every
surplus slot is written out unchanged. -/
theorem c3_no_count_validation (m0 : Model α) (files : List (Option (StateDict α)))
    (hd : Int) (m : Model α) (out : StateDict (StateDict α))
    (hrun : main m0 files hd = .ok (m, out)) :
    files.length ≤ m0.bodies.length ∧
    (∀ j, files.length ≤ j → nthOpt m.bodies j = nthOpt m0.bodies j) := by
  obtain ⟨ma, hassem, hm, _⟩ := main_ok_elim m0 files hd m out hrun
  obtain ⟨_, _, _, hfrozen, hslot, _, _⟩ := assembleFrom_ok files m0 ma 0 hd hassem
  constructor
  · rcases Nat.eq_zero_or_pos files.length with h0 | h0
    · omega
    · obtain ⟨f, hf⟩ := nthOpt_of_lt files (files.length - 1) (by omega)
      obtain ⟨ckpt, b, r, _, hb, _, _⟩ := hslot (files.length - 1) f hf
      have hlt := nthOpt_lt_length m0.bodies (0 + (files.length - 1)) b hb
      omega
  · intro j hj
    rw [hm, muxerPostInit_bodies]
    exact hfrozen j (Or.inr (by omega))

/-- Witness for C3 (amended) on the concrete under-count run. -/
theorem c3_no_count_validation_witness :
    c3files.length ≤ c3m0.bodies.length ∧
    (∀ j, c3files.length ≤ j → nthOpt c3m.bodies j = nthOpt c3m0.bodies j) :=
  c3_no_count_validation c3m0 c3files 0 c3m c3out (by decide)

/-- C7: a successful composition forces every child name of the
head-weights checkpoint's head partition to name an existing submodule of
the target model — by contraposition, a head partition naming an unknown
child (the `model._modules[child]` KeyError of line 78, the
UnknownChildError) can never reach the output write. -/
theorem c7_unknown_child (m0 : Model α) (ckpts : List (StateDict α)) (i0 : Nat)
    (m : Model α) (out : StateDict (StateDict α)) (hi0 : i0 < ckpts.length)
    (hrun : main m0 (ckpts.map some) ((i0 : Nat) : Int) = .ok (m, out)) :
    ∃ ckpt0 cds, nthOpt ckpts i0 = some ckpt0 ∧
      children_state_dicts ckpt0 = .ok cds ∧
      ∀ x ∈ cds, (dlookup x.1 m0.children).isSome := by
  obtain ⟨ma, hassem, _, _⟩ := main_ok_elim m0 (ckpts.map some) ((i0 : Nat) : Int)
    m out hrun
  obtain ⟨_, _, _, _, _, _, hchild⟩ :=
    assembleFrom_ok (ckpts.map some) m0 ma 0 ((i0 : Nat) : Int) hassem
  obtain ⟨ckpt0, hck⟩ := nthOpt_of_lt ckpts i0 hi0
  have hf : nthOpt (ckpts.map some) i0 = some (some ckpt0) := by
    rw [nthOpt_map some ckpts i0, hck]
    rfl
  have hhit : ((0 + i0 : Nat) : Int) = ((i0 : Nat) : Int) := by
    rw [Nat.zero_add]
  obtain ⟨ckpt, cds, ch, hfc, hcds, hlc, _⟩ := hchild i0 (some ckpt0) hf hhit
  have hce : ckpt0 = ckpt := (Option.some.injEq _ _).mp hfc
  refine ⟨ckpt0, cds, hck, by rw [hce]; exact hcds, ?_⟩
  intro x hx
  exact loadChildren_known cds m0.children ch hlc x hx

def c7m0 : Model Nat :=
  ⟨[[("a".data, 0)]], [("RPN".data, [("w".data, 0)])], .plain, none⟩

def c7ckpts : List (StateDict Nat) :=
  [[("Conv_Body.a".data, 1), ("RPN.w".data, 2)]]

def c7m : Model Nat :=
  ⟨[[("a".data, 1)]], [("RPN".data, [("w".data, 2)])], .plain, none⟩

def c7out : StateDict (StateDict Nat) :=
  [("model".data, [("Conv_Body.bodies.0.a".data, 1), ("RPN.w".data, 2)])]

/-- Witness for C7 on a concrete run whose head child `RPN` exists. -/
theorem c7_unknown_child_witness :
    ∃ ckpt0 cds, nthOpt c7ckpts 0 = some ckpt0 ∧
      children_state_dicts ckpt0 = .ok cds ∧
      ∀ x ∈ cds, (dlookup x.1 c7m0.children).isSome :=
  c7_unknown_child c7m0 c7ckpts 0 c7m c7out (by decide) (by decide)

/-- Constructive success of the assembly loop when every body load matches
and no loop position hits the head-weights index: the loop completes and
never touches the children. -/
theorem assembleFrom_succeeds (ckpts : List (StateDict α)) :
    ∀ (m : Model α) (i : Nat) (hd : Int),
    (∀ t ckpt, nthOpt ckpts t = some ckpt → ∃ b, nthOpt m.bodies (i + t) = some b ∧
      sameKeys b (body_state_dict ckpt) = true) →
    (∀ t, t < ckpts.length → (((i + t : Nat) : Int) = hd → False)) →
    ∃ m2, assembleFrom m i hd (ckpts.map some) = .ok m2 ∧
      m2.children = m.children ∧ m2.variant = m.variant ∧
      m2.convSelect = m.convSelect := by
  induction ckpts with
  | nil =>
    intro m i hd _ _
    exact ⟨m, rfl, rfl, rfl, rfl⟩
  | cons ckpt0 rest ih =>
    intro m i hd hloads hmiss
    obtain ⟨b, hb, hsk⟩ := hloads 0 ckpt0 rfl
    have hne : ((i : Nat) : Int) = hd → False := hmiss 0 (by simp)
    obtain ⟨r, hload⟩ : ∃ r, load_state_dict b (body_state_dict ckpt0) = .ok r :=
      ⟨_, load_ok_of_sameKeys b (body_state_dict ckpt0) hsk⟩
    have hb0 : nthOpt m.bodies i = some b := hb
    have hstep : loadCheckpoint m i hd ckpt0 =
        .ok { m with bodies := setSlot m.bodies i r } := by
      unfold loadCheckpoint
      simp only [hb0, hload]
      rw [if_neg hne]
    obtain ⟨m2, hm2, hch, hvar, hsel⟩ :=
      ih { m with bodies := setSlot m.bodies i r } (i + 1) hd
      (by
        intro t ckpt hcknth
        obtain ⟨b2, hb2, hsk2⟩ := hloads (t + 1) ckpt hcknth
        refine ⟨b2, ?_, hsk2⟩
        show nthOpt (setSlot m.bodies i r) ((i + 1) + t) = some b2
        rw [nthOpt_setSlot_ne m.bodies i ((i + 1) + t) r (by omega)]
        rw [show (i + 1) + t = i + (t + 1) from by omega]
        exact hb2)
      (by
        intro t ht habs
        refine hmiss (t + 1) (by simpa using ht) ?_
        rw [show i + (t + 1) = (i + 1) + t from by omega]
        exact habs)
    refine ⟨m2, ?_, hch, hvar, hsel⟩
    rw [List.map_cons, assembleFrom_cons]
    simp only [torchLoad, hstep]
    exact hm2

/-- C10 (implicit behavior): for a head-weights index outside `[0, N)` the
assembly loop completes without error (given matching body loads), no head
submodule receives any parameter, the concatenate-conv re-initialization is
still invoked with the out-of-range index, and an output file is still
written — the tool never validates the head-weights index against the
checkpoint count. -/
theorem c10_out_of_range_head (m0 : Model α) (ckpts : List (StateDict α)) (hd : Int)
    (hrange : hd < 0 ∨ (ckpts.length : Int) ≤ hd)
    (hloads : ∀ t ckpt, nthOpt ckpts t = some ckpt → ∃ b, nthOpt m0.bodies t = some b ∧
      sameKeys b (body_state_dict ckpt) = true) :
    ∃ m out, main m0 (ckpts.map some) hd = .ok (m, out) ∧
      m.children = m0.children ∧ m.variant = m0.variant ∧
      (m0.variant = .concatenateConv → m.convSelect = some hd) ∧
      (m0.variant ≠ .concatenateConv → m.convSelect = m0.convSelect) ∧
      out = output_checkpoint m := by
  obtain ⟨m2, hassem, hch, hvar, hsel⟩ := assembleFrom_succeeds ckpts m0 0 hd
    (by
      intro t ckpt h
      rw [Nat.zero_add]
      exact hloads t ckpt h)
    (by
      intro t ht habs
      rw [Nat.zero_add] at habs
      rcases hrange with h | h <;> omega)
  refine ⟨muxerPostInit m2 hd, output_checkpoint (muxerPostInit m2 hd), ?_, ?_, ?_,
    ?_, ?_, rfl⟩
  · unfold main assemble
    rw [hassem]
  · rw [muxerPostInit_children, hch]
  · rw [muxerPostInit_variant, hvar]
  · intro hconc
    rw [muxerPostInit_concat m2 hd (by rw [hvar]; exact hconc)]
    rfl
  · intro hconc
    rw [muxerPostInit_plain m2 hd (fusion_ne_concat _ (by rw [hvar]; exact hconc)), hsel]

def c10m0 : Model Nat :=
  ⟨[[("a".data, 3)]], [("RPN".data, [("w".data, 9)])], .concatenateConv, none⟩

def c10ckpts : List (StateDict Nat) :=
  [[("Conv_Body.a".data, 5), ("RPN.w".data, 6)]]

/-- Witness for C10: head index 5 with a single checkpoint — the run
succeeds, the head child keeps its construction-time value, and the
concatenate-conv selection is initialized at the out-of-range index 5. -/
theorem c10_out_of_range_head_witness :
    ∃ m out, main c10m0 (c10ckpts.map some) 5 = .ok (m, out) ∧
      m.children = c10m0.children ∧ m.variant = c10m0.variant ∧
      (c10m0.variant = .concatenateConv → m.convSelect = some 5) ∧
      (c10m0.variant ≠ .concatenateConv → m.convSelect = c10m0.convSelect) ∧
      out = output_checkpoint m :=
  c10_out_of_range_head c10m0 c10ckpts 5 (Or.inr (by decide)) (by
    intro t ckpt h
    cases t with
    | zero =>
      have hc : [("Conv_Body.a".data, 5), ("RPN.w".data, 6)] = ckpt :=
        (Option.some.injEq _ _).mp h
      subst hc
      exact ⟨[("a".data, 3)], rfl, by decide⟩
    | succ t2 => cases h)

/-- C1: for N checkpoints against an N-slot model and a head-weights index
inside `[0, N)`, after a successful run backbone slot `t` holds exactly the
body partition of checkpoint `t` (the loaded slot agrees with
`body_state_dict` of its own checkpoint at every key), and every head child
either keeps its construction-time state (no group for it in the
head-weights checkpoint) or holds exactly the corresponding group of the
head-weights checkpoint — so no head parameter originates from any other
checkpoint, and no slot or child is populated twice: each slot is written
only by its own loop iteration and the children only from the single
iteration `i0`, whose groups carry pairwise distinct child names. -/
theorem c1_assembly (m0 : Model α) (ckpts : List (StateDict α)) (i0 : Nat)
    (m : Model α) (out : StateDict (StateDict α))
    (hN : m0.bodies.length = ckpts.length)
    (hi0 : i0 < ckpts.length)
    (hrun : main m0 (ckpts.map some) ((i0 : Nat) : Int) = .ok (m, out)) :
    m.bodies.length = ckpts.length ∧
    (∀ t ckpt, nthOpt ckpts t = some ckpt →
      ∃ b r, nthOpt m0.bodies t = some b ∧
        load_state_dict b (body_state_dict ckpt) = .ok r ∧
        nthOpt m.bodies t = some r ∧
        ∀ k, dlookup k r = dlookup k (body_state_dict ckpt)) ∧
    (∃ ckpt0 cds, nthOpt ckpts i0 = some ckpt0 ∧
      children_state_dicts ckpt0 = .ok cds ∧ nodupKeys cds ∧
      (∀ c, dlookup c cds = none → dlookup c m.children = dlookup c m0.children) ∧
      (∀ c sd, dlookup c cds = some sd →
        ∃ rc, dlookup c m.children = some rc ∧
          ∀ s, dlookup s rc = dlookup s sd)) := by
  obtain ⟨ma, hassem, hm, _⟩ := main_ok_elim m0 (ckpts.map some) ((i0 : Nat) : Int)
    m out hrun
  obtain ⟨hlen, _, _, _, hslot, _, hchild⟩ :=
    assembleFrom_ok (ckpts.map some) m0 ma 0 ((i0 : Nat) : Int) hassem
  have hmb : m.bodies = ma.bodies := by
    rw [hm, muxerPostInit_bodies]
  have hmc : m.children = ma.children := by
    rw [hm, muxerPostInit_children]
  refine ⟨?_, ?_, ?_⟩
  · rw [hmb, hlen, hN]
  · intro t ckpt hck
    have hf : nthOpt (ckpts.map some) t = some (some ckpt) := by
      rw [nthOpt_map some ckpts t, hck]
      rfl
    obtain ⟨ckpt2, b, r, hfc, hb, hloadr, hr⟩ := hslot t (some ckpt) hf
    have hce : ckpt = ckpt2 := (Option.some.injEq _ _).mp hfc
    subst hce
    rw [Nat.zero_add] at hb hr
    refine ⟨b, r, hb, hloadr, by rw [hmb]; exact hr, ?_⟩
    intro k
    exact load_lookup b (body_state_dict ckpt) r hloadr k
  · obtain ⟨ckpt0, hck⟩ := nthOpt_of_lt ckpts i0 hi0
    have hf : nthOpt (ckpts.map some) i0 = some (some ckpt0) := by
      rw [nthOpt_map some ckpts i0, hck]
      rfl
    have hhit : ((0 + i0 : Nat) : Int) = ((i0 : Nat) : Int) := by
      rw [Nat.zero_add]
    obtain ⟨ckpt2, cds, ch, hfc, hcds, hlc, hch⟩ := hchild i0 (some ckpt0) hf hhit
    have hce : ckpt0 = ckpt2 := (Option.some.injEq _ _).mp hfc
    subst hce
    have hnodup := (children_state_dicts_nodup ckpt0 cds hcds).1
    obtain ⟨hspec1, hspec2⟩ := loadChildren_spec cds m0.children ch hlc hnodup
    refine ⟨ckpt0, cds, hck, hcds, hnodup, ?_, ?_⟩
    · intro c hc
      rw [hmc, hch]
      exact hspec1 c hc
    · intro c sd hc
      obtain ⟨cur, rc, _, hloadc, hrc⟩ := hspec2 c sd hc
      refine ⟨rc, by rw [hmc, hch]; exact hrc, ?_⟩
      intro s
      exact load_lookup cur sd rc hloadc s

def c1m0 : Model Nat :=
  ⟨[[("a".data, 0)], [("a".data, 0)]],
   [("RPN".data, [("w".data, 9)]), ("Box_Outs".data, [("b".data, 8)])], .plain, none⟩

def c1ckpts : List (StateDict Nat) :=
  [[("Conv_Body.a".data, 1), ("RPN.w".data, 2)], [("Conv_Body.a".data, 3)]]

def c1m : Model Nat :=
  ⟨[[("a".data, 1)], [("a".data, 3)]],
   [("RPN".data, [("w".data, 2)]), ("Box_Outs".data, [("b".data, 8)])], .plain, none⟩

def c1out : StateDict (StateDict Nat) :=
  [("model".data,
    [("Conv_Body.bodies.0.a".data, 1), ("Conv_Body.bodies.1.a".data, 3),
     ("RPN.w".data, 2), ("Box_Outs.b".data, 8)])]

/-- Witness for C1: two checkpoints, two slots, head index 0; the head
child `RPN` is populated from checkpoint 0 and `Box_Outs` keeps its
construction-time state. -/
theorem c1_assembly_witness :
    c1m.bodies.length = c1ckpts.length ∧
    (∀ t ckpt, nthOpt c1ckpts t = some ckpt →
      ∃ b r, nthOpt c1m0.bodies t = some b ∧
        load_state_dict b (body_state_dict ckpt) = .ok r ∧
        nthOpt c1m.bodies t = some r ∧
        ∀ k, dlookup k r = dlookup k (body_state_dict ckpt)) ∧
    (∃ ckpt0 cds, nthOpt c1ckpts 0 = some ckpt0 ∧
      children_state_dicts ckpt0 = .ok cds ∧ nodupKeys cds ∧
      (∀ c, dlookup c cds = none → dlookup c c1m.children = dlookup c c1m0.children) ∧
      (∀ c sd, dlookup c cds = some sd →
        ∃ rc, dlookup c c1m.children = some rc ∧
          ∀ s, dlookup s rc = dlookup s sd)) :=
  c1_assembly c1m0 c1ckpts 0 c1m c1out (by decide) (by decide) (by decide)

def c4m0 : Model Nat :=
  ⟨[[("a".data, 0)]], [("RPN".data, [("w".data, 99)])], .plain, none⟩

def c4files : List (Option (StateDict Nat)) := [some [("Conv_Body.a".data, 1)]]

def c4m : Model Nat :=
  ⟨[[("a".data, 1)]], [("RPN".data, [("w".data, 99)])], .plain, none⟩

def c4out : StateDict (StateDict Nat) :=
  [("model".data, [("Conv_Body.bodies.0.a".data, 1), ("RPN.w".data, 99)])]

/-- C4 counterexample: the head-weights checkpoint carries no key for the
head child `RPN`, so the written state keeps `RPN.w = 99`, the
construction-time value — a leaf of the output sourced from none of the
input checkpoints (no checkpoint contains the value 99 at all). -/
theorem c4_counterexample :
    main c4m0 c4files 0 = .ok (c4m, c4out) ∧
    ("RPN.w".data, 99) ∈ state_dict c4m ∧
    (∀ f ∈ c4files, ∀ ck : StateDict Nat, f = some ck → ∀ kv ∈ ck, kv.2 ≠ 99) :=
  ⟨by decide, by decide, by decide⟩

/-- C4 (amended): the written mapping binds exactly the key set of the
freshly constructed model's state dict (each leaf exactly once when the
model's parameter paths are unique), and each leaf's value either occurs in
one of the input checkpoints or is retained unchanged from the freshly
constructed model — leaves not covered by the routing (surplus slots,
head children missing from the head checkpoint) keep construction-time
values rather than being sourced from a checkpoint. -/
theorem c4_provenance (m0 : Model α) (files : List (Option (StateDict α))) (hd : Int)
    (m : Model α) (out : StateDict (StateDict α))
    (hrun : main m0 files hd = .ok (m, out)) :
    out = output_checkpoint m ∧
    dictKeys (state_dict m) = dictKeys (state_dict m0) ∧
    (nodupKeys (state_dict m0) → nodupKeys (state_dict m)) ∧
    (∀ x : Key × α, x ∈ state_dict m →
      (∃ ck, some ck ∈ files ∧ ∃ k2, (k2, x.2) ∈ ck) ∨ x ∈ state_dict m0) := by
  obtain ⟨ma, hassem, hm, hout⟩ := main_ok_elim m0 files hd m out hrun
  obtain ⟨hlen, _, _, hfrozen, hslot, hnochild, hchild⟩ :=
    assembleFrom_ok files m0 ma 0 hd hassem
  have hmb : m.bodies = ma.bodies := by
    rw [hm, muxerPostInit_bodies]
  have hmc : m.children = ma.children := by
    rw [hm, muxerPostInit_children]
  have hchcase : ma.children = m0.children ∨
      ∃ ckpt cds ch, some ckpt ∈ files ∧ children_state_dicts ckpt = .ok cds ∧
        loadChildren m0.children cds = .ok ch ∧ ma.children = ch := by
    by_cases hex : ∃ t f, nthOpt files t = some f ∧ ((0 + t : Nat) : Int) = hd
    · obtain ⟨t, f, hf, hh⟩ := hex
      obtain ⟨ckpt, cds, ch, hfc, hcds, hlc, hch⟩ := hchild t f hf hh
      refine Or.inr ⟨ckpt, cds, ch, ?_, hcds, hlc, hch⟩
      rw [← hfc]
      exact nthOpt_mem files t f hf
    · exact Or.inl (hnochild (fun t f hf habs => hex ⟨t, f, hf, habs⟩))
  have hbshape : bodiesShape ma.bodies = bodiesShape m0.bodies := by
    apply bodiesShape_ext
    intro j
    by_cases hj : j < files.length
    · obtain ⟨f, hf⟩ := nthOpt_of_lt files j hj
      obtain ⟨ckpt, b, r, _, hb, hloadr, hr⟩ := hslot j f hf
      rw [Nat.zero_add] at hb hr
      rw [hb, hr]
      simp [load_keys b (body_state_dict ckpt) r hloadr]
    · rw [hfrozen j (Or.inr (by omega))]
  have hcshape : childrenShape ma.children = childrenShape m0.children := by
    rcases hchcase with h | ⟨ckpt, cds, ch, _, _, hlc, hch⟩
    · rw [h]
    · rw [hch]
      exact loadChildren_shape cds m0.children ch hlc
  have hkeys : dictKeys (state_dict m) = dictKeys (state_dict m0) := by
    apply state_dict_keys_eq
    · rw [hmb]
      exact hbshape
    · rw [hmc]
      exact hcshape
  refine ⟨hout, hkeys, ?_, ?_⟩
  · intro hn
    unfold nodupKeys at hn ⊢
    rw [hkeys]
    exact hn
  · intro x hx
    unfold state_dict at hx
    rcases List.mem_append.mp hx with hbx | hcx
    · obtain ⟨t, b, kv, hnth, hkv, hxe⟩ := mem_bodiesFlatten m.bodies 0 x hbx
      rw [hmb] at hnth
      by_cases ht : t < files.length
      · obtain ⟨f, hf⟩ := nthOpt_of_lt files t ht
        obtain ⟨ckpt, b2, r, hfc, hb2, hloadr, hr⟩ := hslot t f hf
        rw [Nat.zero_add] at hb2 hr
        rw [hnth] at hr
        have hbr : b = r := (Option.some.injEq _ _).mp hr
        subst hbr
        have hdl : dlookup kv.1 (body_state_dict ckpt) = some kv.2 :=
          load_mem b2 (body_state_dict ckpt) b hloadr kv.1 kv.2 hkv
        obtain ⟨k, hkck, _, _⟩ :=
          body_state_dict_mem ckpt (kv.1, kv.2) (dlookup_mem _ _ _ hdl)
        refine Or.inl ⟨ckpt, ?_, k, ?_⟩
        · rw [← hfc]
          exact nthOpt_mem files t f hf
        · rw [hxe]
          exact hkck
      · have hfro := hfrozen t (Or.inr (by omega))
        rw [hnth] at hfro
        right
        unfold state_dict
        refine List.mem_append_left _ ?_
        rw [hxe]
        exact bodiesFlatten_mem m0.bodies 0 t b kv hfro.symm hkv
    · obtain ⟨c, sd, kv, hcm, hkv, hxe⟩ := mem_childrenFlatten m.children x hcx
      rw [hmc] at hcm
      rcases hchcase with hsame | ⟨ckpt, cds, ch, hckf, hcds, hlc, hch⟩
      · rw [hsame] at hcm
        right
        unfold state_dict
        refine List.mem_append_right _ ?_
        rw [hxe]
        exact childrenFlatten_mem m0.children c sd kv hcm hkv
      · rw [hch] at hcm
        rcases loadChildren_mem cds m0.children ch hlc (c, sd) hcm with
          hin | ⟨cur, sd2, hsd2, hloadc⟩
        · right
          unfold state_dict
          refine List.mem_append_right _ ?_
          rw [hxe]
          exact childrenFlatten_mem m0.children c sd kv hin hkv
        · have hdl : dlookup kv.1 sd2 = some kv.2 :=
            load_mem cur sd2 sd hloadc kv.1 kv.2 hkv
          have hnodup := (children_state_dicts_nodup ckpt cds hcds).1
          have hdc : dlookup c cds = some sd2 := mem_dlookup c sd2 cds hnodup hsd2
          have hcl : cdsLookup c kv.1 cds = some kv.2 := by
            unfold cdsLookup
            rw [hdc, Option.some_bind]
            exact hdl
          rcases childrenFrom_backward ckpt [] cds c kv.1 kv.2 hcds hcl with
            habs | ⟨hmemk, _⟩
          · rw [cdsLookup_none_empty] at habs
            cases habs
          · refine Or.inl ⟨ckpt, hckf, c ++ '.' :: kv.1, ?_⟩
            rw [hxe]
            exact hmemk

/-- Witness for C4 (amended) on the concrete run of the counterexample
input: keys preserved, and every written leaf is a checkpoint value or a
retained construction-time value. -/
theorem c4_provenance_witness :
    c4out = output_checkpoint c4m ∧
    dictKeys (state_dict c4m) = dictKeys (state_dict c4m0) ∧
    (nodupKeys (state_dict c4m0) → nodupKeys (state_dict c4m)) ∧
    (∀ x : Key × Nat, x ∈ state_dict c4m →
      (∃ ck, some ck ∈ c4files ∧ ∃ k2, (k2, x.2) ∈ ck) ∨ x ∈ state_dict c4m0) :=
  c4_provenance c4m0 c4files 0 c4m c4out (by decide)

end CreateMultiInputModel
